import Mathlib

/-!
Shallow embedding of the circomspect core covered by the verified claims:

* the basic-block builder of
  `src/program_structure/src/control_flow_graph/cfg_impl.rs`
  (`build_basic_blocks`, `visit_statement`, `complete_basic_block`);
* the value knowledge buckets of
  `src/program_structure/src/control_flow_graph/value_meta.rs`;
* the template gathering helpers of
  `src/program_analysis/src/gather_information.rs`;
* the report filtering and exit-code logic of `src/cli/src/main.rs`.

Conventions of the embedding:

* `Meta` values (source locations, file ids), the typed environment and the
  curve configuration carry no information relevant to the embedded
  properties (none of them feeds back into the block structure); they are
  omitted from the embedded structures.  For the same reason the statement
  lowering `try_into_ir` is the evident injection of the AST fragment into
  the IR fragment (the lowering lives outside the embedded files and cannot
  fail on the constructs kept here).
* Rust `HashSet<usize>` values are embedded as `Finset Nat`; every set
  iteration performed by the source applies an order-independent update to
  pairwise distinct positions, so the hash iteration order is irrelevant.
* The mutable `NonEmptyVec<BasicBlock>` is threaded explicitly as a
  `List BasicBlock`; `basic_blocks[i]` is positional indexing, and pushing
  appends at the end.
* The recursion of `visit_statement` is bounded by an explicit fuel
  parameter so that the definitions stay structurally recursive (and hence
  kernel-computable).  `sizeOf` strictly decreases along every recursive
  call of the source, so the fuel supplied by `build_basic_blocks` is never
  exhausted on the recursions the source performs.
* Rust `assert!` failures (panics) and fuel exhaustion are modelled as the
  error values of `VErr`.  The `Result::Err` values of the source arise
  only from expression lowering, which the embedded fragment never fails.
-/

/-- AST expressions (`ast::Expression`), restricted to the constructors the
embedded functions inspect; all remaining constructors of the source fall
into catch-all arms exactly like `Number` and `Variable` do.  The argument
lists of `Call` and `AnonymousComponent` are omitted: both embedded
consumers match them with `{ id, .. }` and never look at the arguments. -/
inductive Expr where
  | Number (value : Nat)
  | Variable (name : String)
  | InfixOp (op : String) (lhe rhe : Expr)
  | PrefixOp (rhe : Expr)
  | ParallelOp (rhe : Expr)
  | Call (id : String)
  | AnonymousComponent (id : String)
deriving DecidableEq

/-- AST statements (`ast::Statement`).  `Declaration` keeps only the name
(its type and dimensions only flow into the omitted environment), and the
`LogCall` arguments are never inspected by the embedded functions. -/
inductive AstStatement where
  | InitializationBlock (stmts : List AstStatement)
  | Block (stmts : List AstStatement)
  | While (cond : Expr) (stmt : AstStatement)
  | IfThenElse (cond : Expr) (if_case : AstStatement) (else_case : Option AstStatement)
  | Declaration (name : String)
  | Substitution (var : String) (rhe : Expr)
  | MultiSubstitution (lhe : Expr) (rhe : Expr)
  | ConstraintEquality (lhe : Expr) (rhe : Expr)
  | Return (value : Expr)
  | Assert (arg : Expr)
  | LogCall

def exprSize : Expr → Nat
  | .InfixOp _ lhe rhe => 1 + exprSize lhe + exprSize rhe
  | .PrefixOp rhe => 1 + exprSize rhe
  | .ParallelOp rhe => 1 + exprSize rhe
  | _ => 1

mutual
def astSize : AstStatement → Nat
  | .InitializationBlock l => 1 + astSizeList l
  | .Block l => 1 + astSizeList l
  | .While c s => 1 + exprSize c + astSize s
  | .IfThenElse c a e => 1 + exprSize c + astSize a + astSizeOpt e
  | .Declaration _ => 1
  | .Substitution _ r => 1 + exprSize r
  | .MultiSubstitution l r => 1 + exprSize l + exprSize r
  | .ConstraintEquality l r => 1 + exprSize l + exprSize r
  | .Return v => 1 + exprSize v
  | .Assert a => 1 + exprSize a
  | .LogCall => 1
def astSizeList : List AstStatement → Nat
  | [] => 1
  | s :: rest => 1 + astSize s + astSizeList rest
def astSizeOpt : Option AstStatement → Nat
  | none => 1
  | some s => 1 + astSize s
end

/-- IR statements (`ir::Statement`): same simple statements, but the
conditional refers to basic-block indices (`if_true`, optional `if_false`). -/
inductive IrStatement where
  | IfThenElse (cond : Expr) (if_true : Nat) (if_false : Option Nat)
  | Substitution (var : String) (rhe : Expr)
  | MultiSubstitution (lhe : Expr) (rhe : Expr)
  | ConstraintEquality (lhe : Expr) (rhe : Expr)
  | Return (value : Expr)
  | Assert (arg : Expr)
  | LogCall
deriving DecidableEq

/-- A basic block (`basic_block::BasicBlock`): index, statements, and the
predecessor and successor index sets. -/
structure BasicBlock where
  index : Nat
  stmts : List IrStatement
  preds : Finset Nat
  succs : Finset Nat
deriving DecidableEq

def defaultBlock : BasicBlock := ⟨0, [], ∅, ∅⟩

def defaultIrStatement : IrStatement := .LogCall

/-- Positional access `basic_blocks[i]`. -/
def blockAt (bs : List BasicBlock) (i : Nat) : BasicBlock := bs.getD i defaultBlock

def predAt (bs : List BasicBlock) (i : Nat) : Finset Nat := (blockAt bs i).preds

def succAt (bs : List BasicBlock) (i : Nat) : Finset Nat := (blockAt bs i).succs

def stmtsAt (bs : List BasicBlock) (i : Nat) : List IrStatement := (blockAt bs i).stmts

/-- `basic_blocks.last().get_index()`. -/
def lastIndex (bs : List BasicBlock) : Nat := (bs.getLastD defaultBlock).index

/-- `basic_blocks.last_mut().append_statement(s)`: append a statement to the
last block. -/
def appendStmt (bs : List BasicBlock) (s : IrStatement) : List BasicBlock :=
  match bs with
  | [] => []
  | [b] => [{ b with stmts := b.stmts ++ [s] }]
  | b :: rest => b :: appendStmt rest s

/-- The false-branch patch of `complete_basic_block`: if the final statement
is an `IfThenElse` whose `if_false` is unset and whose `if_true` is not `j`,
set `if_false` to `j`.  Only the last statement is inspected. -/
def patchLast (stmts : List IrStatement) (j : Nat) : List IrStatement :=
  match stmts with
  | [] => []
  | [s] =>
      match s with
      | .IfThenElse cond if_true none =>
          if j ≠ if_true then [.IfThenElse cond if_true (some j)]
          else [.IfThenElse cond if_true none]
      | _ => [s]
  | s :: rest => s :: patchLast rest j

/-- `basic_blocks[i].add_successor(j)` together with the false-branch patch,
as performed for every `i ∈ pred_set` by `complete_basic_block`. -/
def addSuccessorAndPatch (b : BasicBlock) (j : Nat) : BasicBlock :=
  { b with succs := insert j b.succs, stmts := patchLast b.stmts j }

/-- Apply `f k ·` to the element at each position `k` (positional update of
the block vector). -/
def updateBlocks (f : Nat → BasicBlock → BasicBlock) : Nat → List BasicBlock → List BasicBlock
  | _, [] => []
  | k, b :: rest => f k b :: updateBlocks f (k + 1) rest

/-- `complete_basic_block`: push a fresh empty block with index
`j = basic_blocks.len()` and predecessors `pred_set`; every `i ∈ pred_set`
gains `j` as successor and, when its final statement is an unpatched
conditional whose true target is not `j`, has its false target set to `j`. -/
def complete_basic_block (bs : List BasicBlock) (pred_set : Finset Nat) : List BasicBlock :=
  let j := bs.length
  updateBlocks (fun k b => if k ∈ pred_set then addSuccessorAndPatch b j else b) 0 bs
    ++ [⟨j, [], pred_set, ∅⟩]

/-- The back-edge loop of the `While` arm: every `i ∈ pred_set` gains the
loop header as successor, and the header gains `pred_set` as predecessors.
No false-branch patching happens here. -/
def addBackEdges (bs : List BasicBlock) (pred_set : Finset Nat) (header : Nat) :
    List BasicBlock :=
  updateBlocks
    (fun k b =>
      let b := if k ∈ pred_set then { b with succs := insert header b.succs } else b
      if k = header then { b with preds := b.preds ∪ pred_set } else b)
    0 bs

/-- Failure modes of the embedded visitor: `panicAssert` models a Rust
`assert!` failure (a panic), `outOfFuel` the exhaustion of the recursion
bound (never reached from `build_basic_blocks`). -/
inductive VErr where
  | outOfFuel
  | panicAssert
deriving DecidableEq

/-- The three recursion shapes of `visit_statement`: visiting one statement,
the loop over an initialization block, and the loop over a block's
statements threading the running predecessor set. -/
inductive VisitTask where
  | one (s : AstStatement)
  | startInits (l : List AstStatement)
  | blockRest (l : List AstStatement) (pred_set : Finset Nat)

/-- Fuel-indexed transcription of `visit_statement` (cfg_impl.rs, lines
145-319).  Returns the updated block vector and the predecessor set of the
next block. -/
def visitGo : Nat → VisitTask → List BasicBlock → Except VErr (List BasicBlock × Finset Nat)
  | 0, _, _ => .error .outOfFuel
  | fuel + 1, .one stmt, bs =>
    match stmt with
    | .InitializationBlock l => visitGo fuel (.startInits l) bs
    | .Block l => visitGo fuel (.blockRest l ∅) bs
    | .While cond body =>
        let current := lastIndex bs
        let bs1 := complete_basic_block bs {current}
        let bs2 := appendStmt bs1 (.IfThenElse cond (current + 2) none)
        let header := current + 1
        let bs3 := complete_basic_block bs2 {header}
        match visitGo fuel (.one body) bs3 with
        | .error e => .error e
        | .ok (bs4, ps0) =>
            let ps := if ps0 = ∅ then {lastIndex bs4} else ps0
            .ok (addBackEdges bs4 ps header, {header})
    | .IfThenElse cond if_case else_case =>
        let current := lastIndex bs
        let bs1 := appendStmt bs (.IfThenElse cond (current + 1) none)
        let bs2 := complete_basic_block bs1 {current}
        match visitGo fuel (.one if_case) bs2 with
        | .error e => .error e
        | .ok (bs3, ps1) =>
            let if_pred := if ps1 = ∅ then {lastIndex bs3} else ps1
            match else_case with
            | none => .ok (bs3, insert current if_pred)
            | some else_body =>
                let bs4 := complete_basic_block bs3 {current}
                match visitGo fuel (.one else_body) bs4 with
                | .error e => .error e
                | .ok (bs5, ps2) =>
                    let else_pred := if ps2 = ∅ then {lastIndex bs5} else ps2
                    .ok (bs5, if_pred ∪ else_pred)
    | .Declaration _ => .ok (bs, ∅)
    | .Substitution var rhe => .ok (appendStmt bs (.Substitution var rhe), ∅)
    | .MultiSubstitution lhe rhe => .ok (appendStmt bs (.MultiSubstitution lhe rhe), ∅)
    | .ConstraintEquality lhe rhe => .ok (appendStmt bs (.ConstraintEquality lhe rhe), ∅)
    | .Return value => .ok (appendStmt bs (.Return value), ∅)
    | .Assert arg => .ok (appendStmt bs (.Assert arg), ∅)
    | .LogCall => .ok (appendStmt bs .LogCall, ∅)
  | fuel + 1, .startInits l, bs =>
    match l with
    | [] => .ok (bs, ∅)
    | s :: rest =>
        match visitGo fuel (.one s) bs with
        | .error e => .error e
        | .ok (bs1, ps) =>
            if ps = ∅ then visitGo fuel (.startInits rest) bs1
            else .error .panicAssert
  | fuel + 1, .blockRest l pred_set, bs =>
    match l with
    | [] => .ok (bs, pred_set)
    | s :: rest =>
        let bs0 := if pred_set = ∅ then bs else complete_basic_block bs pred_set
        match visitGo fuel (.one s) bs0 with
        | .error e => .error e
        | .ok (bs1, ps) => visitGo fuel (.blockRest rest ps) bs1

/-- `visit_statement` with the fuel bound discussed in the header. -/
def visit_statement (stmt : AstStatement) (bs : List BasicBlock) :
    Except VErr (List BasicBlock × Finset Nat) :=
  visitGo (astSize stmt + 1) (.one stmt) bs

/-- The entry block pushed by `build_basic_blocks` before visiting. -/
def entryBlock : BasicBlock := ⟨0, [], ∅, ∅⟩

/-- `build_basic_blocks`: asserts the body is a `Block`, starts from the
entry block, visits the body and returns the block vector. -/
def build_basic_blocks (body : AstStatement) : Except VErr (List BasicBlock) :=
  match body with
  | .Block _ =>
      match visit_statement body [entryBlock] with
      | .error e => .error e
      | .ok (bs, _) => .ok bs
  | _ => .error .panicAssert

instance {ε α : Type} [DecidableEq ε] [DecidableEq α] : DecidableEq (Except ε α) :=
  fun a b =>
    match a, b with
    | .error e, .error e' =>
        decidable_of_iff (e = e') ⟨fun h => congrArg Except.error h, fun h => by injection h⟩
    | .ok x, .ok y =>
        decidable_of_iff (x = y) ⟨fun h => congrArg Except.ok h, fun h => by injection h⟩
    | .error _, .ok _ => isFalse fun hc => Except.noConfusion hc
    | .ok _, .error _ => isFalse fun hc => Except.noConfusion hc

/-- Extract the block vector of a successful visit (used to name concrete
construction results). -/
def getBlocks : Except VErr (List BasicBlock × Finset Nat) → List BasicBlock
  | .ok (bs, _) => bs
  | .error _ => []

/-! ## Value knowledge (value_meta.rs) -/

/-- `ValueReduction`: a boolean or a field element (`BigInt` embedded as
`Int`). -/
inductive ValueReduction where
  | Boolean (value : Bool)
  | FieldElement (value : Int)
deriving DecidableEq

/-- `ValueKnowledge`: an optional `ValueReduction`. -/
structure ValueKnowledge where
  reduces_to : Option ValueReduction
deriving DecidableEq

def ValueKnowledge.new : ValueKnowledge := ⟨none⟩

/-- `set_reduces_to`: unconditionally store the given reduction. -/
def ValueKnowledge.set_reduces_to (k : ValueKnowledge) (v : ValueReduction) : ValueKnowledge :=
  { k with reduces_to := some v }

def ValueKnowledge.get_reduces_to (k : ValueKnowledge) : Option ValueReduction :=
  k.reduces_to

def ValueKnowledge.is_constant (k : ValueKnowledge) : Bool :=
  k.reduces_to.isSome

def ValueKnowledge.is_boolean (k : ValueKnowledge) : Bool :=
  match k.reduces_to with
  | some (.Boolean _) => true
  | _ => false

def ValueKnowledge.is_field_element (k : ValueKnowledge) : Bool :=
  match k.reduces_to with
  | some (.FieldElement _) => true
  | _ => false

/-! ## Report filtering and process exit code (src/cli/src/main.rs) -/

/-- `MessageCategory` with its total order INFO < WARNING < ERROR. -/
inductive MessageCategory where
  | Info
  | Warning
  | Error
deriving DecidableEq

def MessageCategory.toNat : MessageCategory → Nat
  | .Info => 0
  | .Warning => 1
  | .Error => 2

/-- A report: stable id, category, and the primary file ids. -/
structure Report where
  id : String
  category : MessageCategory
  primary_file_ids : List Nat
deriving DecidableEq

/-- `filter_by_level`: the report category is at least the output level. -/
def filter_by_level (report : Report) (output_level : MessageCategory) : Bool :=
  output_level.toNat ≤ report.category.toNat

/-- `filter_by_file`: some primary location lies in a user-provided file. -/
def filter_by_file (report : Report) (user_inputs : List Nat) : Bool :=
  report.primary_file_ids.any fun file_id => user_inputs.contains file_id

/-- `filter_by_id`: the report id is not in the allow list. -/
def filter_by_id (report : Report) (allow_list : List String) : Bool :=
  !(allow_list.contains report.id)

/-- The reports actually written by the stdout writer: those passing all
three filters installed in `main`. -/
def written_reports (reports : List Report) (output_level : MessageCategory)
    (user_inputs : List Nat) (allow_list : List String) : List Report :=
  reports.filter fun report =>
    filter_by_level report output_level && filter_by_file report user_inputs &&
      filter_by_id report allow_list

inductive ExitCode where
  | SUCCESS
  | FAILURE
deriving DecidableEq

/-- The exit-code logic of `main`: with no input files the help text is
printed and the run succeeds; otherwise the exit code is determined by
`reports_written()`, the number of reports that passed the stdout writer's
filters.  `reports` stands for the full report stream produced by the
(external) analysis runner; the sarif writer re-reads the cached reports and
does not change the count. -/
def main_exit (input_files : List String) (reports : List Report)
    (output_level : MessageCategory) (user_inputs : List Nat)
    (allow_list : List String) : ExitCode :=
  if input_files.isEmpty then .SUCCESS
  else
    match (written_reports reports output_level user_inputs allow_list).length with
    | 0 => .SUCCESS
    | _ + 1 => .FAILURE

/-! ## Template gathering (src/program_analysis/src/gather_information.rs) -/

/-- The program archive as seen by the gathering helpers: the `templates`
and `functions` maps, embedded as association lists keyed by name. -/
structure ProgramArchive where
  templates : List (String × AstStatement)
  functions : List (String × AstStatement)

def lookupDef (defs : List (String × AstStatement)) (id : String) : Option AstStatement :=
  (defs.find? fun entry => entry.1 = id).map fun entry => entry.2

mutual
/-- `gather_templates_expression`: collect called template/function names up
to the given depth; anonymous components are always collected. -/
def gather_templates_expression (expr : Expr) (result : Finset String)
    (program_archive : ProgramArchive) (level : Nat) : Finset String :=
  match expr with
  | .Call id =>
      if _h : 0 < level then
        if id ∈ result then result
        else
          let result := insert id result
          match lookupDef program_archive.templates id with
          | some body => gather_templates_statement body result program_archive (level - 1)
          | none =>
              match lookupDef program_archive.functions id with
              | some body => gather_templates_statement body result program_archive (level - 1)
              | none => result
      else result
  | .AnonymousComponent id => insert id result
  | .InfixOp _ lhe rhe =>
      gather_templates_expression rhe
        (gather_templates_expression lhe result program_archive level) program_archive level
  | .PrefixOp rhe => gather_templates_expression rhe result program_archive level
  | .ParallelOp rhe => gather_templates_expression rhe result program_archive level
  | _ => result
termination_by (level, exprSize expr)
decreasing_by
all_goals simp only [Prod.lex_def, astSize, astSizeList, astSizeOpt, exprSize]
all_goals first
  | (left; omega)
  | (right; exact ⟨trivial, by omega⟩)

/-- `gather_templates_statement`: walk a statement, gathering from every
embedded expression (log-call arguments are skipped by the source). -/
def gather_templates_statement (stmt : AstStatement) (result : Finset String)
    (program_archive : ProgramArchive) (level : Nat) : Finset String :=
  match stmt with
  | .IfThenElse cond if_case else_case =>
      let result := gather_templates_expression cond result program_archive level
      let result := gather_templates_statement if_case result program_archive level
      match else_case with
      | some else_body => gather_templates_statement else_body result program_archive level
      | none => result
  | .While cond stmt =>
      gather_templates_statement stmt
        (gather_templates_expression cond result program_archive level) program_archive level
  | .Return value => gather_templates_expression value result program_archive level
  | .InitializationBlock stmts => gather_templates_statement_list stmts result program_archive level
  | .Declaration _ => result
  | .Substitution _ rhe => gather_templates_expression rhe result program_archive level
  | .MultiSubstitution _ rhe => gather_templates_expression rhe result program_archive level
  | .ConstraintEquality lhe rhe =>
      gather_templates_expression rhe
        (gather_templates_expression lhe result program_archive level) program_archive level
  | .LogCall => result
  | .Block stmts => gather_templates_statement_list stmts result program_archive level
  | .Assert arg => gather_templates_expression arg result program_archive level
termination_by (level, astSize stmt)
decreasing_by
all_goals simp only [Prod.lex_def, astSize, astSizeList, astSizeOpt, exprSize]
all_goals first
  | (left; omega)
  | (right; exact ⟨trivial, by omega⟩)

/-- The statement-list loops of the `InitializationBlock` and `Block` arms. -/
def gather_templates_statement_list (stmts : List AstStatement) (result : Finset String)
    (program_archive : ProgramArchive) (level : Nat) : Finset String :=
  match stmts with
  | [] => result
  | stmt :: rest =>
      gather_templates_statement_list rest
        (gather_templates_statement stmt result program_archive level) program_archive level
termination_by (level, astSizeList stmts)
decreasing_by
all_goals simp only [Prod.lex_def, astSize, astSizeList, astSizeOpt, exprSize]
all_goals first
  | (left; omega)
  | (right; exact ⟨trivial, by omega⟩)
end

/-! ## Positional lemmas about the block-vector operations -/

theorem getD_append_left {α : Type} (l l' : List α) (i : Nat) (d : α) (h : i < l.length) :
    (l ++ l').getD i d = l.getD i d := by
  induction l generalizing i with
  | nil => simp at h
  | cons a t ih =>
      cases i with
      | zero => rfl
      | succ i => simpa using ih i (by simpa using h)

theorem getD_append_right {α : Type} (l : List α) (b : α) (d : α) :
    (l ++ [b]).getD l.length d = b := by
  induction l with
  | nil => rfl
  | cons a t ih => simpa using ih

theorem getD_length_le {α : Type} (l : List α) (i : Nat) (d : α) (h : l.length ≤ i) :
    l.getD i d = d := by
  induction l generalizing i with
  | nil => cases i <;> rfl
  | cons a t ih =>
      cases i with
      | zero => simp at h
      | succ i => simpa using ih i (by simpa using h)

theorem updateBlocks_length (f : Nat → BasicBlock → BasicBlock) :
    ∀ (k : Nat) (bs : List BasicBlock), (updateBlocks f k bs).length = bs.length := by
  intro k bs
  induction bs generalizing k with
  | nil => rfl
  | cons b t ih => simpa [updateBlocks] using ih (k + 1)

theorem blockAt_updateBlocks (f : Nat → BasicBlock → BasicBlock) :
    ∀ (bs : List BasicBlock) (k i : Nat), i < bs.length →
      blockAt (updateBlocks f k bs) i = f (k + i) (blockAt bs i) := by
  intro bs
  induction bs with
  | nil => intro k i h; simp at h
  | cons b t ih =>
      intro k i h
      cases i with
      | zero => rfl
      | succ i =>
          have := ih (k + 1) i (by simpa using h)
          simpa [updateBlocks, blockAt, Nat.add_assoc, Nat.add_comm 1 i] using this

theorem complete_length (bs : List BasicBlock) (ps : Finset Nat) :
    (complete_basic_block bs ps).length = bs.length + 1 := by
  simp [complete_basic_block, updateBlocks_length]

theorem blockAt_complete_old (bs : List BasicBlock) (ps : Finset Nat) (i : Nat)
    (h : i < bs.length) :
    blockAt (complete_basic_block bs ps) i =
      if i ∈ ps then addSuccessorAndPatch (blockAt bs i) bs.length else blockAt bs i := by
  unfold complete_basic_block blockAt
  rw [getD_append_left _ _ _ _ (by simpa [updateBlocks_length] using h)]
  have := blockAt_updateBlocks
    (fun k b => if k ∈ ps then addSuccessorAndPatch b bs.length else b) bs 0 i h
  simpa [blockAt] using this

theorem getD_append_at {α : Type} (l : List α) (b d : α) (i : Nat) (h : i = l.length) :
    (l ++ [b]).getD i d = b := by
  subst h; exact getD_append_right l b d

theorem blockAt_complete_new (bs : List BasicBlock) (ps : Finset Nat) :
    blockAt (complete_basic_block bs ps) bs.length = ⟨bs.length, [], ps, ∅⟩ := by
  unfold complete_basic_block blockAt
  exact getD_append_at _ _ _ _ (updateBlocks_length _ _ _).symm

theorem blockAt_complete_big (bs : List BasicBlock) (ps : Finset Nat) (i : Nat)
    (h : bs.length + 1 ≤ i) :
    blockAt (complete_basic_block bs ps) i = defaultBlock := by
  unfold blockAt
  exact getD_length_le _ _ _ (by simpa [complete_length bs ps] using h)

theorem appendStmt_length (bs : List BasicBlock) (s : IrStatement) :
    (appendStmt bs s).length = bs.length := by
  induction bs with
  | nil => rfl
  | cons b t ih =>
      cases t with
      | nil => rfl
      | cons b' t' => simpa [appendStmt] using ih

theorem blockAt_appendStmt (bs : List BasicBlock) (s : IrStatement) (i : Nat) :
    blockAt (appendStmt bs s) i =
      if i + 1 = bs.length then
        { blockAt bs i with stmts := (blockAt bs i).stmts ++ [s] }
      else blockAt bs i := by
  induction bs generalizing i with
  | nil => simp [appendStmt, blockAt]
  | cons b t ih =>
      cases t with
      | nil =>
          cases i with
          | zero => simp [appendStmt, blockAt]
          | succ i => simp [appendStmt, blockAt, getD_length_le]
      | cons b' t' =>
          cases i with
          | zero => simp [appendStmt, blockAt]
          | succ i =>
              have := ih i
              simpa [appendStmt, blockAt] using this

theorem addBackEdges_length (bs : List BasicBlock) (ps : Finset Nat) (header : Nat) :
    (addBackEdges bs ps header).length = bs.length := by
  simp [addBackEdges, updateBlocks_length]

theorem blockAt_addBackEdges (bs : List BasicBlock) (ps : Finset Nat) (header i : Nat)
    (h : i < bs.length) :
    blockAt (addBackEdges bs ps header) i =
      (fun b =>
        if i = header then { b with preds := b.preds ∪ ps } else b)
      (if i ∈ ps then { blockAt bs i with succs := insert header (blockAt bs i).succs }
       else blockAt bs i) := by
  unfold addBackEdges
  have := blockAt_updateBlocks
    (fun k b =>
      let b := if k ∈ ps then { b with succs := insert header b.succs } else b
      if k = header then { b with preds := b.preds ∪ ps } else b)
    bs 0 i h
  simpa using this

theorem blockAt_addBackEdges_big (bs : List BasicBlock) (ps : Finset Nat) (header i : Nat)
    (h : bs.length ≤ i) :
    blockAt (addBackEdges bs ps header) i = defaultBlock := by
  unfold blockAt
  exact getD_length_le _ _ _ (by simpa [addBackEdges_length] using h)

theorem getLastD_eq_getD (bs : List BasicBlock) (d : BasicBlock) (h : bs ≠ []) :
    bs.getLastD d = bs.getD (bs.length - 1) d := by
  induction bs with
  | nil => simp at h
  | cons b t ih =>
      cases t with
      | nil => rfl
      | cons b' t' => simpa using ih (by simp)

theorem lastIndex_eq (bs : List BasicBlock) (h : bs ≠ []) :
    lastIndex bs = (blockAt bs (bs.length - 1)).index := by
  unfold lastIndex blockAt
  rw [getLastD_eq_getD bs defaultBlock h]

/-- The effect of `patchLast` on the final statement. -/
theorem getLast?_patchLast (l : List IrStatement) (j : Nat) :
    (patchLast l j).getLast? =
      match l.getLast? with
      | some (.IfThenElse c t none) =>
          if j ≠ t then some (.IfThenElse c t (some j)) else some (.IfThenElse c t none)
      | o => o := by
  induction l with
  | nil => rfl
  | cons s t ih =>
      cases t with
      | nil =>
          cases s with
          | IfThenElse c ift iff =>
              cases iff with
              | none =>
                  by_cases hj : j = ift <;> simp [patchLast, hj]
              | some v => simp [patchLast]
          | Substitution a b => simp [patchLast]
          | MultiSubstitution a b => simp [patchLast]
          | ConstraintEquality a b => simp [patchLast]
          | Return a => simp [patchLast]
          | Assert a => simp [patchLast]
          | LogCall => simp [patchLast]
      | cons s' t' =>
          obtain ⟨s'', t'', hpc⟩ : ∃ s'' t'', patchLast (s' :: t') j = s'' :: t'' := by
            cases t' with
            | nil =>
                cases s' with
                | IfThenElse c ift iff =>
                    cases iff with
                    | none =>
                        by_cases hj : j = ift <;> simp [patchLast, hj]
                    | some v => simp [patchLast]
                | Substitution a b => simp [patchLast]
                | MultiSubstitution a b => simp [patchLast]
                | ConstraintEquality a b => simp [patchLast]
                | Return a => simp [patchLast]
                | Assert a => simp [patchLast]
                | LogCall => simp [patchLast]
            | cons s'' t'' => exact ⟨s', patchLast (s'' :: t'') j, rfl⟩
          have h1 : patchLast (s :: s' :: t') j = s :: patchLast (s' :: t') j := by
            simp [patchLast]
          rw [h1, hpc, List.getLast?_cons_cons, ← hpc, ih, List.getLast?_cons_cons]

/-! ## The statement-evolution (frame) relation

After a statement has been appended to a block, the only way the builder
ever modifies it is the false-branch patch of `complete_basic_block`:
an `IfThenElse` with `if_false = none` may become the same conditional with
`if_false = some j`.  The relations below state exactly that, and are shown
to be preserved by every operation of the builder. -/

/-- A single statement evolves only by the false-branch patch. -/
def StmtEvol (s s' : IrStatement) : Prop :=
  s' = s ∨ ∃ c t j, s = .IfThenElse c t none ∧ s' = .IfThenElse c t (some j)

/-- Pointwise prefix evolution of statement lists: statements are never
removed or reordered, and existing statements evolve by `StmtEvol`. -/
def StmtsEvol : List IrStatement → List IrStatement → Prop
  | [], _ => True
  | _ :: _, [] => False
  | s :: l, s' :: l' => StmtEvol s s' ∧ StmtsEvol l l'

/-- Evolution of one block: same index, edge sets only grow, statements
evolve by `StmtsEvol`. -/
def BlockEvol (b b' : BasicBlock) : Prop :=
  b'.index = b.index ∧ b.preds ⊆ b'.preds ∧ b.succs ⊆ b'.succs ∧ StmtsEvol b.stmts b'.stmts

/-- Evolution of the block vector: blocks are never removed, and every
existing block evolves by `BlockEvol`. -/
def BlocksEvol : List BasicBlock → List BasicBlock → Prop
  | [], _ => True
  | _ :: _, [] => False
  | b :: l, b' :: l' => BlockEvol b b' ∧ BlocksEvol l l'

theorem stmtEvol_refl (s : IrStatement) : StmtEvol s s := Or.inl rfl

theorem stmtEvol_trans {a b c : IrStatement} (h1 : StmtEvol a b) (h2 : StmtEvol b c) :
    StmtEvol a c := by
  rcases h1 with rfl | ⟨c1, t1, j1, rfl, rfl⟩
  · exact h2
  · rcases h2 with rfl | ⟨c2, t2, j2, heq, rfl⟩
    · exact Or.inr ⟨c1, t1, j1, rfl, rfl⟩
    · cases heq

theorem stmtsEvol_refl (l : List IrStatement) : StmtsEvol l l := by
  induction l with
  | nil => trivial
  | cons s t ih => exact ⟨stmtEvol_refl s, ih⟩

theorem stmtsEvol_trans : ∀ {a b c : List IrStatement},
    StmtsEvol a b → StmtsEvol b c → StmtsEvol a c
  | [], _, _, _, _ => trivial
  | _ :: _, [], _, h1, _ => absurd h1 not_false
  | _ :: _, _ :: _, [], _, h2 => absurd h2 not_false
  | _ :: _, _ :: _, _ :: _, h1, h2 =>
      ⟨stmtEvol_trans h1.1 h2.1, stmtsEvol_trans h1.2 h2.2⟩

theorem stmtsEvol_append (l : List IrStatement) (l' : List IrStatement) :
    StmtsEvol l (l ++ l') := by
  induction l with
  | nil => trivial
  | cons s t ih => exact ⟨stmtEvol_refl s, ih⟩

theorem stmtsEvol_patchLast (l : List IrStatement) (j : Nat) :
    StmtsEvol l (patchLast l j) := by
  induction l with
  | nil => trivial
  | cons s t ih =>
      cases t with
      | nil =>
          cases s with
          | IfThenElse c ift iff =>
              cases iff with
              | none =>
                  by_cases hj : j = ift
                  · simp [patchLast, hj, StmtsEvol, stmtEvol_refl]
                  · simp only [patchLast, if_neg, hj, ne_eq, not_false_iff, if_pos]
                    exact ⟨Or.inr ⟨c, ift, j, rfl, rfl⟩, trivial⟩
              | some v => simp [patchLast, StmtsEvol, stmtEvol_refl]
          | Substitution a b => simp [patchLast, StmtsEvol, stmtEvol_refl]
          | MultiSubstitution a b => simp [patchLast, StmtsEvol, stmtEvol_refl]
          | ConstraintEquality a b => simp [patchLast, StmtsEvol, stmtEvol_refl]
          | Return a => simp [patchLast, StmtsEvol, stmtEvol_refl]
          | Assert a => simp [patchLast, StmtsEvol, stmtEvol_refl]
          | LogCall => simp [patchLast, StmtsEvol, stmtEvol_refl]
      | cons s' t' =>
          have h1 : patchLast (s :: s' :: t') j = s :: patchLast (s' :: t') j := by
            simp [patchLast]
          rw [h1]
          exact ⟨stmtEvol_refl s, ih⟩

theorem blockEvol_refl (b : BasicBlock) : BlockEvol b b :=
  ⟨rfl, Finset.Subset.refl _, Finset.Subset.refl _, stmtsEvol_refl _⟩

theorem blockEvol_trans {a b c : BasicBlock} (h1 : BlockEvol a b) (h2 : BlockEvol b c) :
    BlockEvol a c :=
  ⟨h2.1.trans h1.1, h1.2.1.trans h2.2.1, h1.2.2.1.trans h2.2.2.1,
    stmtsEvol_trans h1.2.2.2 h2.2.2.2⟩

theorem blocksEvol_refl (bs : List BasicBlock) : BlocksEvol bs bs := by
  induction bs with
  | nil => trivial
  | cons b t ih => exact ⟨blockEvol_refl b, ih⟩

theorem blocksEvol_trans : ∀ {a b c : List BasicBlock},
    BlocksEvol a b → BlocksEvol b c → BlocksEvol a c
  | [], _, _, _, _ => trivial
  | _ :: _, [], _, h1, _ => absurd h1 not_false
  | _ :: _, _ :: _, [], _, h2 => absurd h2 not_false
  | _ :: _, _ :: _, _ :: _, h1, h2 =>
      ⟨blockEvol_trans h1.1 h2.1, blocksEvol_trans h1.2 h2.2⟩

theorem blocksEvol_append_right {bs xs : List BasicBlock} (h : BlocksEvol bs xs)
    (ys : List BasicBlock) : BlocksEvol bs (xs ++ ys) := by
  induction bs generalizing xs with
  | nil => trivial
  | cons b t ih =>
      cases xs with
      | nil => exact absurd h not_false
      | cons x xt => exact ⟨h.1, ih h.2⟩

theorem blocksEvol_updateBlocks (f : Nat → BasicBlock → BasicBlock)
    (hf : ∀ k b, BlockEvol b (f k b)) :
    ∀ (k : Nat) (bs : List BasicBlock), BlocksEvol bs (updateBlocks f k bs) := by
  intro k bs
  induction bs generalizing k with
  | nil => trivial
  | cons b t ih => exact ⟨hf k b, ih (k + 1)⟩

theorem blockEvol_addSuccessorAndPatch (b : BasicBlock) (j : Nat) :
    BlockEvol b (addSuccessorAndPatch b j) :=
  ⟨rfl, Finset.Subset.refl _, Finset.subset_insert _ _, stmtsEvol_patchLast _ _⟩

theorem blocksEvol_complete (bs : List BasicBlock) (ps : Finset Nat) :
    BlocksEvol bs (complete_basic_block bs ps) := by
  unfold complete_basic_block
  refine blocksEvol_append_right ?_ _
  refine blocksEvol_updateBlocks _ ?_ 0 bs
  intro k b
  by_cases hk : k ∈ ps
  · simpa [hk] using blockEvol_addSuccessorAndPatch b bs.length
  · simpa [hk] using blockEvol_refl b

theorem blocksEvol_appendStmt (bs : List BasicBlock) (s : IrStatement) :
    BlocksEvol bs (appendStmt bs s) := by
  induction bs with
  | nil => trivial
  | cons b t ih =>
      cases t with
      | nil =>
          exact ⟨⟨rfl, Finset.Subset.refl _, Finset.Subset.refl _, stmtsEvol_append _ _⟩,
            trivial⟩
      | cons b' t' => exact ⟨blockEvol_refl b, ih⟩

theorem blocksEvol_addBackEdges (bs : List BasicBlock) (ps : Finset Nat) (header : Nat) :
    BlocksEvol bs (addBackEdges bs ps header) := by
  unfold addBackEdges
  refine blocksEvol_updateBlocks _ ?_ 0 bs
  intro k b
  dsimp only
  have e1 : BlockEvol b (if k ∈ ps then { b with succs := insert header b.succs } else b) := by
    by_cases hk : k ∈ ps
    · exact if_pos hk ▸
        ⟨rfl, Finset.Subset.refl _, Finset.subset_insert _ _, stmtsEvol_refl _⟩
    · exact if_neg hk ▸ blockEvol_refl b
  refine blockEvol_trans e1 ?_
  set b1 := if k ∈ ps then { b with succs := insert header b.succs } else b with hb1
  by_cases hh : k = header
  · exact if_pos hh ▸
      ⟨rfl, Finset.subset_union_left, Finset.Subset.refl _, stmtsEvol_refl _⟩
  · exact if_neg hh ▸ blockEvol_refl b1

/-- Every successful visit only evolves the block vector: blocks are
appended, statements are appended, edge sets grow, and existing statements
change only by the false-branch patch. -/
theorem visitGo_evol : ∀ (fuel : Nat) (t : VisitTask) (bs : List BasicBlock)
    (out : List BasicBlock × Finset Nat),
    visitGo fuel t bs = .ok out → BlocksEvol bs out.1 := by
  intro fuel
  induction fuel with
  | zero => intro t bs out h; simp [visitGo] at h
  | succ fuel ih =>
      intro t bs out h
      cases t with
      | one s =>
          cases s with
          | InitializationBlock l =>
              exact ih (.startInits l) bs out (by simpa [visitGo] using h)
          | Block l =>
              exact ih (.blockRest l ∅) bs out (by simpa [visitGo] using h)
          | While cond body =>
              simp only [visitGo] at h
              cases h4 : visitGo fuel (.one body)
                  (complete_basic_block
                    (appendStmt (complete_basic_block bs {lastIndex bs})
                      (.IfThenElse cond (lastIndex bs + 2) none))
                    {lastIndex bs + 1}) with
              | error e => rw [h4] at h; exact absurd h (by simp)
              | ok out4 =>
                  obtain ⟨bs4, ps0⟩ := out4
                  rw [h4] at h
                  simp only [Except.ok.injEq] at h
                  have e1 : BlocksEvol bs (complete_basic_block bs {lastIndex bs}) :=
                    blocksEvol_complete _ _
                  have e2 : BlocksEvol bs
                      (appendStmt (complete_basic_block bs {lastIndex bs})
                        (.IfThenElse cond (lastIndex bs + 2) none)) :=
                    blocksEvol_trans e1 (blocksEvol_appendStmt _ _)
                  have e3 : BlocksEvol bs
                      (complete_basic_block
                        (appendStmt (complete_basic_block bs {lastIndex bs})
                          (.IfThenElse cond (lastIndex bs + 2) none))
                        {lastIndex bs + 1}) :=
                    blocksEvol_trans e2 (blocksEvol_complete _ _)
                  have e4 : BlocksEvol bs bs4 :=
                    blocksEvol_trans e3 (ih _ _ (bs4, ps0) h4)
                  have e5 : BlocksEvol bs
                      (addBackEdges bs4 (if ps0 = ∅ then {lastIndex bs4} else ps0)
                        (lastIndex bs + 1)) :=
                    blocksEvol_trans e4 (blocksEvol_addBackEdges _ _ _)
                  rw [← h]
                  exact e5
          | IfThenElse cond if_case else_case =>
              simp only [visitGo] at h
              cases h3 : visitGo fuel (.one if_case)
                  (complete_basic_block
                    (appendStmt bs (.IfThenElse cond (lastIndex bs + 1) none))
                    {lastIndex bs}) with
              | error e => rw [h3] at h; exact absurd h (by simp)
              | ok out3 =>
                  obtain ⟨bs3, ps1⟩ := out3
                  rw [h3] at h
                  have e1 : BlocksEvol bs
                      (appendStmt bs (.IfThenElse cond (lastIndex bs + 1) none)) :=
                    blocksEvol_appendStmt _ _
                  have e2 : BlocksEvol bs
                      (complete_basic_block
                        (appendStmt bs (.IfThenElse cond (lastIndex bs + 1) none))
                        {lastIndex bs}) :=
                    blocksEvol_trans e1 (blocksEvol_complete _ _)
                  have e3 : BlocksEvol bs bs3 :=
                    blocksEvol_trans e2 (ih _ _ (bs3, ps1) h3)
                  cases else_case with
                  | none =>
                      simp only [Except.ok.injEq] at h
                      rw [← h]
                      exact e3
                  | some else_body =>
                      simp only at h
                      cases h5 : visitGo fuel (.one else_body)
                          (complete_basic_block bs3 {lastIndex bs}) with
                      | error e => rw [h5] at h; exact absurd h (by simp)
                      | ok out5 =>
                          obtain ⟨bs5, ps2⟩ := out5
                          rw [h5] at h
                          simp only [Except.ok.injEq] at h
                          have e4 : BlocksEvol bs (complete_basic_block bs3 {lastIndex bs}) :=
                            blocksEvol_trans e3 (blocksEvol_complete _ _)
                          have e5 : BlocksEvol bs bs5 :=
                            blocksEvol_trans e4 (ih _ _ (bs5, ps2) h5)
                          rw [← h]
                          exact e5
          | Declaration name =>
              simp only [visitGo, Except.ok.injEq] at h
              rw [← h]
              exact blocksEvol_refl bs
          | Substitution var rhe =>
              simp only [visitGo, Except.ok.injEq] at h
              rw [← h]
              exact blocksEvol_appendStmt _ _
          | MultiSubstitution lhe rhe =>
              simp only [visitGo, Except.ok.injEq] at h
              rw [← h]
              exact blocksEvol_appendStmt _ _
          | ConstraintEquality lhe rhe =>
              simp only [visitGo, Except.ok.injEq] at h
              rw [← h]
              exact blocksEvol_appendStmt _ _
          | Return value =>
              simp only [visitGo, Except.ok.injEq] at h
              rw [← h]
              exact blocksEvol_appendStmt _ _
          | Assert arg =>
              simp only [visitGo, Except.ok.injEq] at h
              rw [← h]
              exact blocksEvol_appendStmt _ _
          | LogCall =>
              simp only [visitGo, Except.ok.injEq] at h
              rw [← h]
              exact blocksEvol_appendStmt _ _
      | startInits l =>
          cases l with
          | nil =>
              simp only [visitGo, Except.ok.injEq] at h
              rw [← h]
              exact blocksEvol_refl bs
          | cons s rest =>
              simp only [visitGo] at h
              cases h1 : visitGo fuel (.one s) bs with
              | error e => rw [h1] at h; exact absurd h (by simp)
              | ok out1 =>
                  obtain ⟨bs1, ps⟩ := out1
                  rw [h1] at h
                  simp only at h
                  by_cases hps : ps = ∅
                  · rw [if_pos hps] at h
                    exact blocksEvol_trans (ih _ _ (bs1, ps) h1) (ih _ _ out h)
                  · rw [if_neg hps] at h
                    exact absurd h (by simp)
      | blockRest l pred_set =>
          cases l with
          | nil =>
              simp only [visitGo, Except.ok.injEq] at h
              rw [← h]
              exact blocksEvol_refl bs
          | cons s rest =>
              simp only [visitGo] at h
              have e0 : BlocksEvol bs
                  (if pred_set = ∅ then bs else complete_basic_block bs pred_set) := by
                by_cases hps : pred_set = ∅
                · rw [if_pos hps]; exact blocksEvol_refl bs
                · rw [if_neg hps]; exact blocksEvol_complete _ _
              cases h1 : visitGo fuel (.one s)
                  (if pred_set = ∅ then bs else complete_basic_block bs pred_set) with
              | error e => rw [h1] at h; exact absurd h (by simp)
              | ok out1 =>
                  obtain ⟨bs1, ps⟩ := out1
                  rw [h1] at h
                  simp only at h
                  exact blocksEvol_trans e0
                    (blocksEvol_trans (ih _ _ (bs1, ps) h1) (ih _ _ out h))

/-! ## The well-formedness invariant of the block vector -/

/-- Edge invariants maintained by the builder: non-emptiness,
index = position, no predecessors for the entry block, non-empty
predecessors elsewhere, edges within range, and edge symmetry. -/
structure WfEdges (bs : List BasicBlock) : Prop where
  ne : bs ≠ []
  idx : ∀ i, i < bs.length → (blockAt bs i).index = i
  entry_preds : predAt bs 0 = ∅
  preds_nonempty : ∀ i, 0 < i → i < bs.length → predAt bs i ≠ ∅
  succs_range : ∀ i, i < bs.length → ∀ j, j ∈ succAt bs i → j < bs.length
  preds_range : ∀ i, i < bs.length → ∀ j, j ∈ predAt bs i → j < bs.length
  sym : ∀ i j, i < bs.length → j < bs.length → (j ∈ succAt bs i ↔ i ∈ predAt bs j)

/-- Closedness of recorded conditional targets: the true target of a final
conditional is always a recorded successor, and so is its false target once
patched. -/
def CondClosed (bs : List BasicBlock) : Prop :=
  ∀ i, i < bs.length → ∀ c t f,
    (stmtsAt bs i).getLast? = some (.IfThenElse c t f) →
      t ∈ succAt bs i ∧ ∀ j, f = some j → j ∈ succAt bs i

/-- The full invariant. -/
structure WfBlocks (bs : List BasicBlock) : Prop where
  edges : WfEdges bs
  cond_closed : CondClosed bs

theorem WfBlocks.ne {bs : List BasicBlock} (h : WfBlocks bs) : bs ≠ [] := h.edges.ne

theorem WfBlocks.idx {bs : List BasicBlock} (h : WfBlocks bs) :
    ∀ i, i < bs.length → (blockAt bs i).index = i := h.edges.idx

theorem WfBlocks.entry_preds {bs : List BasicBlock} (h : WfBlocks bs) :
    predAt bs 0 = ∅ := h.edges.entry_preds

theorem WfBlocks.preds_nonempty {bs : List BasicBlock} (h : WfBlocks bs) :
    ∀ i, 0 < i → i < bs.length → predAt bs i ≠ ∅ := h.edges.preds_nonempty

theorem WfBlocks.succs_range {bs : List BasicBlock} (h : WfBlocks bs) :
    ∀ i, i < bs.length → ∀ j, j ∈ succAt bs i → j < bs.length := h.edges.succs_range

theorem WfBlocks.preds_range {bs : List BasicBlock} (h : WfBlocks bs) :
    ∀ i, i < bs.length → ∀ j, j ∈ predAt bs i → j < bs.length := h.edges.preds_range

theorem WfBlocks.sym {bs : List BasicBlock} (h : WfBlocks bs) :
    ∀ i j, i < bs.length → j < bs.length → (j ∈ succAt bs i ↔ i ∈ predAt bs j) :=
  h.edges.sym

theorem wf_lastIndex {bs : List BasicBlock} (hwf : WfBlocks bs) :
    lastIndex bs = bs.length - 1 := by
  rw [lastIndex_eq bs hwf.ne]
  exact hwf.idx (bs.length - 1)
    (Nat.sub_lt (List.length_pos.mpr hwf.ne) Nat.one_pos)

theorem wf_length_pos {bs : List BasicBlock} (hwf : WfBlocks bs) : 0 < bs.length :=
  List.length_pos.mpr hwf.ne

/-- Field access after `complete_basic_block`, old blocks. -/
theorem predAt_complete_old (bs : List BasicBlock) (ps : Finset Nat) (i : Nat)
    (h : i < bs.length) : predAt (complete_basic_block bs ps) i = predAt bs i := by
  unfold predAt
  rw [blockAt_complete_old bs ps i h]
  by_cases hi : i ∈ ps <;> simp [hi, addSuccessorAndPatch]

theorem succAt_complete_old (bs : List BasicBlock) (ps : Finset Nat) (i : Nat)
    (h : i < bs.length) :
    succAt (complete_basic_block bs ps) i =
      if i ∈ ps then insert bs.length (succAt bs i) else succAt bs i := by
  unfold succAt
  rw [blockAt_complete_old bs ps i h]
  by_cases hi : i ∈ ps <;> simp [hi, addSuccessorAndPatch]

theorem stmtsAt_complete_old (bs : List BasicBlock) (ps : Finset Nat) (i : Nat)
    (h : i < bs.length) :
    stmtsAt (complete_basic_block bs ps) i =
      if i ∈ ps then patchLast (stmtsAt bs i) bs.length else stmtsAt bs i := by
  unfold stmtsAt
  rw [blockAt_complete_old bs ps i h]
  by_cases hi : i ∈ ps <;> simp [hi, addSuccessorAndPatch]

theorem indexAt_complete_old (bs : List BasicBlock) (ps : Finset Nat) (i : Nat)
    (h : i < bs.length) :
    (blockAt (complete_basic_block bs ps) i).index = (blockAt bs i).index := by
  rw [blockAt_complete_old bs ps i h]
  by_cases hi : i ∈ ps <;> simp [hi, addSuccessorAndPatch]

theorem predAt_complete_new (bs : List BasicBlock) (ps : Finset Nat) :
    predAt (complete_basic_block bs ps) bs.length = ps := by
  unfold predAt; rw [blockAt_complete_new]

theorem succAt_complete_new (bs : List BasicBlock) (ps : Finset Nat) :
    succAt (complete_basic_block bs ps) bs.length = ∅ := by
  unfold succAt; rw [blockAt_complete_new]

theorem stmtsAt_complete_new (bs : List BasicBlock) (ps : Finset Nat) :
    stmtsAt (complete_basic_block bs ps) bs.length = [] := by
  unfold stmtsAt; rw [blockAt_complete_new]

theorem stmtsAt_complete_at (bs : List BasicBlock) (ps : Finset Nat) (i : Nat)
    (h : i = bs.length) : stmtsAt (complete_basic_block bs ps) i = [] := by
  subst h; exact stmtsAt_complete_new bs ps

/-- Field access after `appendStmt`. -/
theorem predAt_appendStmt (bs : List BasicBlock) (s : IrStatement) (i : Nat) :
    predAt (appendStmt bs s) i = predAt bs i := by
  unfold predAt
  rw [blockAt_appendStmt]
  by_cases hi : i + 1 = bs.length <;> simp [hi]

theorem succAt_appendStmt (bs : List BasicBlock) (s : IrStatement) (i : Nat) :
    succAt (appendStmt bs s) i = succAt bs i := by
  unfold succAt
  rw [blockAt_appendStmt]
  by_cases hi : i + 1 = bs.length <;> simp [hi]

theorem indexAt_appendStmt (bs : List BasicBlock) (s : IrStatement) (i : Nat) :
    (blockAt (appendStmt bs s) i).index = (blockAt bs i).index := by
  rw [blockAt_appendStmt]
  by_cases hi : i + 1 = bs.length <;> simp [hi]

theorem stmtsAt_appendStmt (bs : List BasicBlock) (s : IrStatement) (i : Nat) :
    stmtsAt (appendStmt bs s) i =
      if i + 1 = bs.length then stmtsAt bs i ++ [s] else stmtsAt bs i := by
  unfold stmtsAt
  rw [blockAt_appendStmt]
  by_cases hi : i + 1 = bs.length <;> simp [hi]

/-- Field access after `addBackEdges`. -/
theorem predAt_addBackEdges (bs : List BasicBlock) (ps : Finset Nat) (header i : Nat)
    (h : i < bs.length) :
    predAt (addBackEdges bs ps header) i =
      if i = header then predAt bs i ∪ ps else predAt bs i := by
  unfold predAt
  rw [blockAt_addBackEdges bs ps header i h]
  by_cases hh : i = header
  · subst hh; by_cases hp : i ∈ ps <;> simp [hp]
  · by_cases hp : i ∈ ps <;> simp [hh, hp]

theorem succAt_addBackEdges (bs : List BasicBlock) (ps : Finset Nat) (header i : Nat)
    (h : i < bs.length) :
    succAt (addBackEdges bs ps header) i =
      if i ∈ ps then insert header (succAt bs i) else succAt bs i := by
  unfold succAt
  rw [blockAt_addBackEdges bs ps header i h]
  by_cases hh : i = header
  · subst hh; by_cases hp : i ∈ ps <;> simp [hp]
  · by_cases hp : i ∈ ps <;> simp [hh, hp]

theorem stmtsAt_addBackEdges (bs : List BasicBlock) (ps : Finset Nat) (header i : Nat)
    (h : i < bs.length) :
    stmtsAt (addBackEdges bs ps header) i = stmtsAt bs i := by
  unfold stmtsAt
  rw [blockAt_addBackEdges bs ps header i h]
  by_cases hh : i = header
  · subst hh; by_cases hp : i ∈ ps <;> simp [hp]
  · by_cases hp : i ∈ ps <;> simp [hh, hp]

theorem indexAt_addBackEdges (bs : List BasicBlock) (ps : Finset Nat) (header i : Nat)
    (h : i < bs.length) :
    (blockAt (addBackEdges bs ps header) i).index = (blockAt bs i).index := by
  rw [blockAt_addBackEdges bs ps header i h]
  by_cases hh : i = header
  · subst hh; by_cases hp : i ∈ ps <;> simp [hp]
  · by_cases hp : i ∈ ps <;> simp [hh, hp]

/-- The edge invariants are preserved by `complete_basic_block` when it is
called with a non-empty predecessor set of existing indices. -/
theorem wfEdges_complete (bs : List BasicBlock) (ps : Finset Nat) (he : WfEdges bs)
    (hne : ps.Nonempty) (hsub : ∀ i ∈ ps, i < bs.length) :
    WfEdges (complete_basic_block bs ps) := by
  have hlen := complete_length bs ps
  have hn : 0 < bs.length := List.length_pos.mpr he.ne
  have hnps : bs.length ∉ ps := fun hc => absurd (hsub _ hc) (lt_irrefl _)
  have hnsucc : ∀ i, i < bs.length → bs.length ∉ succAt bs i := fun i hi hc =>
    absurd (he.succs_range i hi _ hc) (lt_irrefl _)
  have hnpred : ∀ i, i < bs.length → bs.length ∉ predAt bs i := fun i hi hc =>
    absurd (he.preds_range i hi _ hc) (lt_irrefl _)
  refine ⟨?_, ?_, ?_, ?_, ?_, ?_, ?_⟩
  · exact List.ne_nil_of_length_pos (by omega)
  · intro i hi
    rw [hlen] at hi
    rcases Nat.lt_succ_iff_lt_or_eq.mp hi with hi' | rfl
    · rw [indexAt_complete_old bs ps i hi']
      exact he.idx i hi'
    · rw [blockAt_complete_new]
  · rw [predAt_complete_old bs ps 0 hn]
    exact he.entry_preds
  · intro i h0 hi
    rw [hlen] at hi
    rcases Nat.lt_succ_iff_lt_or_eq.mp hi with hi' | rfl
    · rw [predAt_complete_old bs ps i hi']
      exact he.preds_nonempty i h0 hi'
    · rw [predAt_complete_new]
      exact Finset.nonempty_iff_ne_empty.mp hne
  · intro i hi j hj
    rw [hlen] at hi
    rcases Nat.lt_succ_iff_lt_or_eq.mp hi with hi' | rfl
    · rw [succAt_complete_old bs ps i hi'] at hj
      by_cases hp : i ∈ ps
      · rw [if_pos hp] at hj
        rcases Finset.mem_insert.mp hj with rfl | hj'
        · omega
        · have := he.succs_range i hi' j hj'; omega
      · rw [if_neg hp] at hj
        have := he.succs_range i hi' j hj; omega
    · rw [succAt_complete_new] at hj
      exact absurd hj (Finset.not_mem_empty j)
  · intro i hi j hj
    rw [hlen] at hi
    rcases Nat.lt_succ_iff_lt_or_eq.mp hi with hi' | rfl
    · rw [predAt_complete_old bs ps i hi'] at hj
      have := he.preds_range i hi' j hj; omega
    · rw [predAt_complete_new] at hj
      have := hsub j hj; omega
  · intro i j hi hj
    rw [hlen] at hi hj
    rcases Nat.lt_succ_iff_lt_or_eq.mp hi with hi' | rfl
    · rcases Nat.lt_succ_iff_lt_or_eq.mp hj with hj' | rfl
      · rw [succAt_complete_old bs ps i hi', predAt_complete_old bs ps j hj']
        by_cases hp : i ∈ ps
        · rw [if_pos hp]
          constructor
          · intro hm
            rcases Finset.mem_insert.mp hm with rfl | hm'
            · omega
            · exact (he.sym i j hi' hj').mp hm'
          · intro hm
            exact Finset.mem_insert_of_mem ((he.sym i j hi' hj').mpr hm)
        · rw [if_neg hp]
          exact he.sym i j hi' hj'
      · rw [succAt_complete_old bs ps i hi', predAt_complete_new]
        by_cases hp : i ∈ ps
        · rw [if_pos hp]
          simp [Finset.mem_insert, hnsucc i hi', hp]
        · rw [if_neg hp]
          constructor
          · intro hm; exact absurd hm (hnsucc i hi')
          · intro hm; exact absurd hm hp
    · rcases Nat.lt_succ_iff_lt_or_eq.mp hj with hj' | rfl
      · rw [succAt_complete_new, predAt_complete_old bs ps j hj']
        constructor
        · intro hm; exact absurd hm (Finset.not_mem_empty j)
        · intro hm; exact absurd hm (hnpred j hj')
      · rw [succAt_complete_new, predAt_complete_new]
        constructor
        · intro hm; exact absurd hm (Finset.not_mem_empty _)
        · intro hm; exact absurd hm hnps

/-- `complete_basic_block` preserves the full invariant. -/
theorem wf_complete (bs : List BasicBlock) (ps : Finset Nat) (hwf : WfBlocks bs)
    (hne : ps.Nonempty) (hsub : ∀ i ∈ ps, i < bs.length) :
    WfBlocks (complete_basic_block bs ps) := by
  have hlen := complete_length bs ps
  refine ⟨wfEdges_complete bs ps hwf.edges hne hsub, ?_⟩
  intro i hi c t f hlast
  rw [hlen] at hi
  rcases Nat.lt_succ_iff_lt_or_eq.mp hi with hi' | rfl
  · rw [stmtsAt_complete_old bs ps i hi'] at hlast
    rw [succAt_complete_old bs ps i hi']
    by_cases hp : i ∈ ps
    · rw [if_pos hp] at hlast ⊢
      rw [getLast?_patchLast] at hlast
      cases hgl : (stmtsAt bs i).getLast? with
      | none => rw [hgl] at hlast; simp at hlast
      | some s0 =>
          rw [hgl] at hlast
          cases s0 with
          | IfThenElse c0 t0 f0 =>
              cases f0 with
              | none =>
                  dsimp only at hlast
                  by_cases ht : bs.length = t0
                  · rw [if_neg (by simpa using ht)] at hlast
                    simp only [Option.some.injEq, IrStatement.IfThenElse.injEq] at hlast
                    obtain ⟨rfl, rfl, rfl⟩ := hlast
                    have hold := hwf.cond_closed i hi' _ _ _ hgl
                    refine ⟨Finset.mem_insert_of_mem hold.1, ?_⟩
                    intro j hj; cases hj
                  · rw [if_pos ht] at hlast
                    simp only [Option.some.injEq, IrStatement.IfThenElse.injEq] at hlast
                    obtain ⟨rfl, rfl, rfl⟩ := hlast
                    have hold := hwf.cond_closed i hi' _ _ _ hgl
                    refine ⟨Finset.mem_insert_of_mem hold.1, ?_⟩
                    intro j hj
                    cases hj
                    exact Finset.mem_insert_self _ _
              | some v =>
                  dsimp only at hlast
                  simp only [Option.some.injEq, IrStatement.IfThenElse.injEq] at hlast
                  obtain ⟨rfl, rfl, rfl⟩ := hlast
                  have hold := hwf.cond_closed i hi' _ _ _ hgl
                  refine ⟨Finset.mem_insert_of_mem hold.1, ?_⟩
                  intro j hj
                  cases hj
                  exact Finset.mem_insert_of_mem (hold.2 v rfl)
          | Substitution a b => simp at hlast
          | MultiSubstitution a b => simp at hlast
          | ConstraintEquality a b => simp at hlast
          | Return a => simp at hlast
          | Assert a => simp at hlast
          | LogCall => simp at hlast
    · rw [if_neg hp] at hlast ⊢
      exact hwf.cond_closed i hi' c t f hlast
  · rw [stmtsAt_complete_new] at hlast
    simp at hlast

/-- `appendStmt` never touches indices or edges, so it preserves the edge
invariants for any statement. -/
theorem wfEdges_appendStmt (bs : List BasicBlock) (s : IrStatement) (he : WfEdges bs) :
    WfEdges (appendStmt bs s) := by
  have hlen := appendStmt_length bs s
  refine ⟨?_, ?_, ?_, ?_, ?_, ?_, ?_⟩
  · exact List.ne_nil_of_length_pos (by rw [hlen]; exact List.length_pos.mpr he.ne)
  · intro i hi
    rw [hlen] at hi
    rw [indexAt_appendStmt]
    exact he.idx i hi
  · rw [predAt_appendStmt]
    exact he.entry_preds
  · intro i h0 hi
    rw [hlen] at hi
    rw [predAt_appendStmt]
    exact he.preds_nonempty i h0 hi
  · intro i hi j hj
    rw [hlen] at hi ⊢
    rw [succAt_appendStmt] at hj
    exact he.succs_range i hi j hj
  · intro i hi j hj
    rw [hlen] at hi ⊢
    rw [predAt_appendStmt] at hj
    exact he.preds_range i hi j hj
  · intro i j hi hj
    rw [hlen] at hi hj
    rw [succAt_appendStmt, predAt_appendStmt]
    exact he.sym i j hi hj

/-- Appending a non-conditional statement preserves the full invariant. -/
theorem wf_appendStmt (bs : List BasicBlock) (s : IrStatement) (hwf : WfBlocks bs)
    (hs : ∀ c t f, s ≠ .IfThenElse c t f) : WfBlocks (appendStmt bs s) := by
  refine ⟨wfEdges_appendStmt bs s hwf.edges, ?_⟩
  intro i hi c t f hlast
  rw [appendStmt_length] at hi
  rw [succAt_appendStmt]
  rw [stmtsAt_appendStmt] at hlast
  by_cases hlt : i + 1 = bs.length
  · rw [if_pos hlt] at hlast
    rw [List.getLast?_concat] at hlast
    cases hlast
    exact absurd rfl (hs c t f)
  · rw [if_neg hlt] at hlast
    exact hwf.cond_closed i hi c t f hlast

/-- The back-edge loop preserves the full invariant when the header is an
existing non-entry block and the predecessor set is within range. -/
theorem wf_addBackEdges (bs : List BasicBlock) (ps : Finset Nat) (header : Nat)
    (hwf : WfBlocks bs) (hsub : ∀ i ∈ ps, i < bs.length)
    (hh1 : 1 ≤ header) (hh2 : header < bs.length) :
    WfBlocks (addBackEdges bs ps header) := by
  have hlen := addBackEdges_length bs ps header
  refine ⟨⟨?_, ?_, ?_, ?_, ?_, ?_, ?_⟩, ?_⟩
  · exact List.ne_nil_of_length_pos (by rw [hlen]; exact List.length_pos.mpr hwf.ne)
  · intro i hi
    rw [hlen] at hi
    rw [indexAt_addBackEdges bs ps header i hi]
    exact hwf.idx i hi
  · rw [predAt_addBackEdges bs ps header 0 (wf_length_pos hwf)]
    rw [if_neg (by omega)]
    exact hwf.entry_preds
  · intro i h0 hi
    rw [hlen] at hi
    rw [predAt_addBackEdges bs ps header i hi]
    by_cases hih : i = header
    · rw [if_pos hih]
      intro hcon
      exact hwf.preds_nonempty i h0 hi (by
        have : predAt bs i ⊆ predAt bs i ∪ ps := Finset.subset_union_left
        rw [hcon] at this
        exact Finset.subset_empty.mp this)
    · rw [if_neg hih]
      exact hwf.preds_nonempty i h0 hi
  · intro i hi j hj
    rw [hlen] at hi ⊢
    rw [succAt_addBackEdges bs ps header i hi] at hj
    by_cases hip : i ∈ ps
    · rw [if_pos hip] at hj
      rcases Finset.mem_insert.mp hj with rfl | hj'
      · exact hh2
      · exact hwf.succs_range i hi j hj'
    · rw [if_neg hip] at hj
      exact hwf.succs_range i hi j hj
  · intro i hi j hj
    rw [hlen] at hi ⊢
    rw [predAt_addBackEdges bs ps header i hi] at hj
    by_cases hih : i = header
    · rw [if_pos hih] at hj
      rcases Finset.mem_union.mp hj with hj' | hj'
      · exact hwf.preds_range i hi j hj'
      · exact hsub j hj'
    · rw [if_neg hih] at hj
      exact hwf.preds_range i hi j hj
  · intro i j hi hj
    rw [hlen] at hi hj
    rw [succAt_addBackEdges bs ps header i hi, predAt_addBackEdges bs ps header j hj]
    by_cases hip : i ∈ ps <;> by_cases hjh : j = header
    · rw [if_pos hip, if_pos hjh]
      subst hjh
      constructor
      · intro hm
        rcases Finset.mem_insert.mp hm with _ | hm'
        · exact Finset.mem_union_right _ hip
        · exact Finset.mem_union_left _ ((hwf.sym i j hi hj).mp hm')
      · intro _
        exact Finset.mem_insert_self _ _
    · rw [if_pos hip, if_neg hjh]
      constructor
      · intro hm
        rcases Finset.mem_insert.mp hm with rfl | hm'
        · exact absurd rfl hjh
        · exact (hwf.sym i j hi hj).mp hm'
      · intro hm
        exact Finset.mem_insert_of_mem ((hwf.sym i j hi hj).mpr hm)
    · rw [if_neg hip, if_pos hjh]
      subst hjh
      constructor
      · intro hm
        exact Finset.mem_union_left _ ((hwf.sym i j hi hj).mp hm)
      · intro hm
        rcases Finset.mem_union.mp hm with hm' | hm'
        · exact (hwf.sym i j hi hj).mpr hm'
        · exact absurd hm' hip
    · rw [if_neg hip, if_neg hjh]
      exact hwf.sym i j hi hj
  · intro i hi c t f hlast
    rw [hlen] at hi
    rw [stmtsAt_addBackEdges bs ps header i hi] at hlast
    rw [succAt_addBackEdges bs ps header i hi]
    have hold := hwf.cond_closed i hi c t f hlast
    by_cases hip : i ∈ ps
    · rw [if_pos hip]
      exact ⟨Finset.mem_insert_of_mem hold.1,
        fun j hj => Finset.mem_insert_of_mem (hold.2 j hj)⟩
    · rw [if_neg hip]
      exact hold

/-- The composite performed by the `While` and `IfThenElse` arms: append an
`IfThenElse` whose true target is the upcoming block index, then complete
the current block.  The completion immediately records the true target as a
successor, so the full invariant is restored. -/
theorem wf_append_ite_complete (bs : List BasicBlock) (c : Expr) (hwf : WfBlocks bs) :
    WfBlocks
      (complete_basic_block (appendStmt bs (.IfThenElse c bs.length none))
        {bs.length - 1}) := by
  have hpos : 0 < bs.length := wf_length_pos hwf
  have hlenA : (appendStmt bs (.IfThenElse c bs.length none)).length = bs.length :=
    appendStmt_length bs _
  have heA : WfEdges (appendStmt bs (.IfThenElse c bs.length none)) :=
    wfEdges_appendStmt bs _ hwf.edges
  have hsub : ∀ i ∈ ({bs.length - 1} : Finset Nat),
      i < (appendStmt bs (.IfThenElse c bs.length none)).length := by
    intro i hi
    rw [hlenA]
    rw [Finset.mem_singleton] at hi
    omega
  refine ⟨wfEdges_complete _ _ heA (Finset.singleton_nonempty _) hsub, ?_⟩
  intro i hi c' t' f' hlast
  rw [complete_length, hlenA] at hi
  rcases Nat.lt_succ_iff_lt_or_eq.mp hi with hi' | rfl
  · have hiA : i < (appendStmt bs (.IfThenElse c bs.length none)).length := by
      rw [hlenA]; exact hi'
    rw [stmtsAt_complete_old _ _ i hiA] at hlast
    rw [succAt_complete_old _ _ i hiA]
    rw [hlenA] at hlast ⊢
    by_cases hieq : i ∈ ({bs.length - 1} : Finset Nat)
    · rw [if_pos hieq] at hlast ⊢
      rw [Finset.mem_singleton] at hieq
      subst hieq
      rw [getLast?_patchLast] at hlast
      rw [stmtsAt_appendStmt, if_pos (by omega), List.getLast?_concat] at hlast
      dsimp only at hlast
      rw [if_neg (by simp)] at hlast
      simp only [Option.some.injEq, IrStatement.IfThenElse.injEq] at hlast
      obtain ⟨rfl, rfl, rfl⟩ := hlast
      refine ⟨Finset.mem_insert_self _ _, ?_⟩
      intro j hj; cases hj
    · rw [if_neg hieq] at hlast ⊢
      rw [Finset.mem_singleton] at hieq
      rw [stmtsAt_appendStmt, if_neg (by omega)] at hlast
      rw [succAt_appendStmt]
      exact hwf.cond_closed i hi' c' t' f' hlast
  · rw [stmtsAt_complete_at _ _ _ hlenA.symm] at hlast
    simp at hlast

/-- Generalized form of the conditional-append composite, with the target
index given by an equation (as it arises inside the visitor arms). -/
theorem wf_append_ite_complete' (bs : List BasicBlock) (c : Expr) (m : Nat)
    (hwf : WfBlocks bs) (hm : m = bs.length) :
    WfBlocks (complete_basic_block (appendStmt bs (.IfThenElse c m none)) {m - 1}) := by
  subst hm
  exact wf_append_ite_complete bs c hwf

/-- Precondition on the task: the running predecessor set of a block loop
refers to existing blocks. -/
def TaskPre : VisitTask → List BasicBlock → Prop
  | .blockRest _ ps, bs => ∀ i ∈ ps, i < bs.length
  | _, _ => True

/-- The visitor preserves the invariant, only grows the vector, and returns
a predecessor set of existing indices. -/
theorem visitGo_wf : ∀ (fuel : Nat) (t : VisitTask) (bs : List BasicBlock)
    (out : List BasicBlock × Finset Nat),
    visitGo fuel t bs = .ok out → WfBlocks bs → TaskPre t bs →
    WfBlocks out.1 ∧ bs.length ≤ out.1.length ∧ ∀ i ∈ out.2, i < out.1.length := by
  intro fuel
  induction fuel with
  | zero => intro t bs out h; simp [visitGo] at h
  | succ fuel ih =>
      intro t bs out h hwf hpre
      cases t with
      | one s =>
          cases s with
          | InitializationBlock l =>
              exact ih (.startInits l) bs out (by simpa [visitGo] using h) hwf trivial
          | Block l =>
              refine ih (.blockRest l ∅) bs out (by simpa [visitGo] using h) hwf ?_
              intro i hi
              exact absurd hi (Finset.not_mem_empty i)
          | While cond body =>
              simp only [visitGo] at h
              have hcur : lastIndex bs = bs.length - 1 := wf_lastIndex hwf
              have hpos : 0 < bs.length := wf_length_pos hwf
              have hwf1 : WfBlocks (complete_basic_block bs {lastIndex bs}) := by
                refine wf_complete bs _ hwf (Finset.singleton_nonempty _) ?_
                intro i hi
                rw [Finset.mem_singleton] at hi
                omega
              have hlen1 : (complete_basic_block bs {lastIndex bs}).length =
                  bs.length + 1 := complete_length bs _
              have hwf3 : WfBlocks
                  (complete_basic_block
                    (appendStmt (complete_basic_block bs {lastIndex bs})
                      (.IfThenElse cond (lastIndex bs + 2) none))
                    {lastIndex bs + 1}) := by
                have := wf_append_ite_complete' (complete_basic_block bs {lastIndex bs})
                  cond (lastIndex bs + 2) hwf1 (by omega)
                simpa using this
              have hlen3 : (complete_basic_block
                  (appendStmt (complete_basic_block bs {lastIndex bs})
                    (.IfThenElse cond (lastIndex bs + 2) none))
                  {lastIndex bs + 1}).length = bs.length + 2 := by
                rw [complete_length, appendStmt_length, hlen1]
              cases h4 : visitGo fuel (.one body)
                  (complete_basic_block
                    (appendStmt (complete_basic_block bs {lastIndex bs})
                      (.IfThenElse cond (lastIndex bs + 2) none))
                    {lastIndex bs + 1}) with
              | error e => rw [h4] at h; exact absurd h (by simp)
              | ok out4 =>
                  obtain ⟨bs4, ps0⟩ := out4
                  rw [h4] at h
                  simp only [Except.ok.injEq] at h
                  obtain ⟨hwf4, hlen4, hps4⟩ := ih _ _ (bs4, ps0) h4 hwf3 trivial
                  dsimp only at hwf4 hlen4 hps4
                  rw [hlen3] at hlen4
                  have hlp4 : 0 < bs4.length := wf_length_pos hwf4
                  have hps' : ∀ i ∈ (if ps0 = ∅ then {lastIndex bs4} else ps0),
                      i < bs4.length := by
                    by_cases hp0 : ps0 = ∅
                    · rw [if_pos hp0]
                      intro i hi
                      rw [Finset.mem_singleton] at hi
                      rw [hi, wf_lastIndex hwf4]
                      omega
                    · rw [if_neg hp0]
                      exact hps4
                  have hwfB : WfBlocks
                      (addBackEdges bs4 (if ps0 = ∅ then {lastIndex bs4} else ps0)
                        (lastIndex bs + 1)) := by
                    refine wf_addBackEdges bs4 _ _ hwf4 hps' (by omega) (by omega)
                  rw [← h]
                  refine ⟨hwfB, ?_, ?_⟩
                  · rw [addBackEdges_length]
                    omega
                  · intro i hi
                    rw [Finset.mem_singleton] at hi
                    rw [addBackEdges_length]
                    omega
          | IfThenElse cond if_case else_case =>
              simp only [visitGo] at h
              have hcur : lastIndex bs = bs.length - 1 := wf_lastIndex hwf
              have hpos : 0 < bs.length := wf_length_pos hwf
              have hwf2 : WfBlocks
                  (complete_basic_block
                    (appendStmt bs (.IfThenElse cond (lastIndex bs + 1) none))
                    {lastIndex bs}) := by
                have := wf_append_ite_complete' bs cond (lastIndex bs + 1) hwf (by omega)
                simpa using this
              have hlen2 : (complete_basic_block
                  (appendStmt bs (.IfThenElse cond (lastIndex bs + 1) none))
                  {lastIndex bs}).length = bs.length + 1 := by
                rw [complete_length, appendStmt_length]
              cases h3 : visitGo fuel (.one if_case)
                  (complete_basic_block
                    (appendStmt bs (.IfThenElse cond (lastIndex bs + 1) none))
                    {lastIndex bs}) with
              | error e => rw [h3] at h; exact absurd h (by simp)
              | ok out3 =>
                  obtain ⟨bs3, ps1⟩ := out3
                  rw [h3] at h
                  obtain ⟨hwf3, hlen3, hps3⟩ := ih _ _ (bs3, ps1) h3 hwf2 trivial
                  dsimp only at hwf3 hlen3 hps3
                  rw [hlen2] at hlen3
                  have hlp3 : 0 < bs3.length := wf_length_pos hwf3
                  have hifp : ∀ i ∈ (if ps1 = ∅ then {lastIndex bs3} else ps1),
                      i < bs3.length := by
                    by_cases hp1 : ps1 = ∅
                    · rw [if_pos hp1]
                      intro i hi
                      rw [Finset.mem_singleton] at hi
                      rw [hi, wf_lastIndex hwf3]
                      omega
                    · rw [if_neg hp1]
                      exact hps3
                  cases else_case with
                  | none =>
                      simp only [Except.ok.injEq] at h
                      rw [← h]
                      dsimp only
                      refine ⟨hwf3, by omega, ?_⟩
                      intro i hi
                      rcases Finset.mem_insert.mp hi with rfl | hi'
                      · omega
                      · exact hifp i hi'
                  | some else_body =>
                      simp only at h
                      have hwf4 : WfBlocks (complete_basic_block bs3 {lastIndex bs}) := by
                        refine wf_complete bs3 _ hwf3 (Finset.singleton_nonempty _) ?_
                        intro i hi
                        rw [Finset.mem_singleton] at hi
                        omega
                      cases h5 : visitGo fuel (.one else_body)
                          (complete_basic_block bs3 {lastIndex bs}) with
                      | error e => rw [h5] at h; exact absurd h (by simp)
                      | ok out5 =>
                          obtain ⟨bs5, ps2⟩ := out5
                          rw [h5] at h
                          simp only [Except.ok.injEq] at h
                          obtain ⟨hwf5, hlen5, hps5⟩ := ih _ _ (bs5, ps2) h5 hwf4 trivial
                          dsimp only at hwf5 hlen5 hps5
                          rw [complete_length] at hlen5
                          have hlp5 : 0 < bs5.length := wf_length_pos hwf5
                          rw [← h]
                          dsimp only
                          refine ⟨hwf5, by omega, ?_⟩
                          intro i hi
                          rcases Finset.mem_union.mp hi with hi' | hi'
                          · by_cases hp1 : ps1 = ∅
                            · rw [if_pos hp1] at hi'
                              rw [Finset.mem_singleton] at hi'
                              have := hifp i (by rw [if_pos hp1]; simpa using hi')
                              omega
                            · rw [if_neg hp1] at hi'
                              have := hps3 i hi'
                              omega
                          · by_cases hp2 : ps2 = ∅
                            · rw [if_pos hp2] at hi'
                              rw [Finset.mem_singleton] at hi'
                              rw [hi', wf_lastIndex hwf5]
                              omega
                            · rw [if_neg hp2] at hi'
                              exact hps5 i hi'
          | Declaration name =>
              simp only [visitGo, Except.ok.injEq] at h
              rw [← h]
              exact ⟨hwf, le_refl _, fun i hi => absurd hi (Finset.not_mem_empty i)⟩
          | Substitution var rhe =>
              simp only [visitGo, Except.ok.injEq] at h
              rw [← h]
              refine ⟨wf_appendStmt bs _ hwf (by intro c t f hcon; cases hcon),
                by rw [appendStmt_length], fun i hi => absurd hi (Finset.not_mem_empty i)⟩
          | MultiSubstitution lhe rhe =>
              simp only [visitGo, Except.ok.injEq] at h
              rw [← h]
              refine ⟨wf_appendStmt bs _ hwf (by intro c t f hcon; cases hcon),
                by rw [appendStmt_length], fun i hi => absurd hi (Finset.not_mem_empty i)⟩
          | ConstraintEquality lhe rhe =>
              simp only [visitGo, Except.ok.injEq] at h
              rw [← h]
              refine ⟨wf_appendStmt bs _ hwf (by intro c t f hcon; cases hcon),
                by rw [appendStmt_length], fun i hi => absurd hi (Finset.not_mem_empty i)⟩
          | Return value =>
              simp only [visitGo, Except.ok.injEq] at h
              rw [← h]
              refine ⟨wf_appendStmt bs _ hwf (by intro c t f hcon; cases hcon),
                by rw [appendStmt_length], fun i hi => absurd hi (Finset.not_mem_empty i)⟩
          | Assert arg =>
              simp only [visitGo, Except.ok.injEq] at h
              rw [← h]
              refine ⟨wf_appendStmt bs _ hwf (by intro c t f hcon; cases hcon),
                by rw [appendStmt_length], fun i hi => absurd hi (Finset.not_mem_empty i)⟩
          | LogCall =>
              simp only [visitGo, Except.ok.injEq] at h
              rw [← h]
              refine ⟨wf_appendStmt bs _ hwf (by intro c t f hcon; cases hcon),
                by rw [appendStmt_length], fun i hi => absurd hi (Finset.not_mem_empty i)⟩
      | startInits l =>
          cases l with
          | nil =>
              simp only [visitGo, Except.ok.injEq] at h
              rw [← h]
              exact ⟨hwf, le_refl _, fun i hi => absurd hi (Finset.not_mem_empty i)⟩
          | cons s rest =>
              simp only [visitGo] at h
              cases h1 : visitGo fuel (.one s) bs with
              | error e => rw [h1] at h; exact absurd h (by simp)
              | ok out1 =>
                  obtain ⟨bs1, ps⟩ := out1
                  rw [h1] at h
                  simp only at h
                  obtain ⟨hwf1, hlen1, _⟩ := ih _ _ (bs1, ps) h1 hwf trivial
                  dsimp only at hwf1 hlen1
                  by_cases hps : ps = ∅
                  · rw [if_pos hps] at h
                    obtain ⟨hwfo, hleno, hpso⟩ := ih _ _ out h hwf1 trivial
                    exact ⟨hwfo, le_trans hlen1 hleno, hpso⟩
                  · rw [if_neg hps] at h
                    exact absurd h (by simp)
      | blockRest l pred_set =>
          cases l with
          | nil =>
              simp only [visitGo, Except.ok.injEq] at h
              rw [← h]
              exact ⟨hwf, le_refl _, hpre⟩
          | cons s rest =>
              simp only [visitGo] at h
              have hwf0 : WfBlocks
                  (if pred_set = ∅ then bs else complete_basic_block bs pred_set) := by
                by_cases hps : pred_set = ∅
                · rw [if_pos hps]; exact hwf
                · rw [if_neg hps]
                  exact wf_complete bs pred_set hwf
                    (Finset.nonempty_iff_ne_empty.mpr hps) hpre
              have hlen0 : bs.length ≤
                  (if pred_set = ∅ then bs else complete_basic_block bs pred_set).length := by
                by_cases hps : pred_set = ∅
                · rw [if_pos hps]
                · rw [if_neg hps, complete_length]
                  omega
              cases h1 : visitGo fuel (.one s)
                  (if pred_set = ∅ then bs else complete_basic_block bs pred_set) with
              | error e => rw [h1] at h; exact absurd h (by simp)
              | ok out1 =>
                  obtain ⟨bs1, ps⟩ := out1
                  rw [h1] at h
                  simp only at h
                  obtain ⟨hwf1, hlen1, hps1⟩ := ih _ _ (bs1, ps) h1 hwf0 trivial
                  dsimp only at hwf1 hlen1 hps1
                  obtain ⟨hwfo, hleno, hpso⟩ := ih _ _ out h hwf1 hps1
                  exact ⟨hwfo, by omega, hpso⟩

theorem wf_entry : WfBlocks [entryBlock] := by
  refine ⟨⟨?_, ?_, ?_, ?_, ?_, ?_, ?_⟩, ?_⟩
  · simp
  · intro i hi
    simp only [List.length_singleton] at hi
    have : i = 0 := by omega
    subst this
    rfl
  · rfl
  · intro i h0 hi
    simp only [List.length_singleton] at hi
    omega
  · intro i hi j hj
    simp only [List.length_singleton] at hi
    have : i = 0 := by omega
    subst this
    exact absurd hj (Finset.not_mem_empty j)
  · intro i hi j hj
    simp only [List.length_singleton] at hi
    have : i = 0 := by omega
    subst this
    exact absurd hj (Finset.not_mem_empty j)
  · intro i j hi hj
    simp only [List.length_singleton] at hi hj
    have hi0 : i = 0 := by omega
    have hj0 : j = 0 := by omega
    subst hi0; subst hj0
    simp [succAt, predAt, blockAt, entryBlock]
  · intro i hi c t f hlast
    simp only [List.length_singleton] at hi
    have : i = 0 := by omega
    subst this
    simp [stmtsAt, blockAt, entryBlock] at hlast

/-- Every basic-block vector produced by `build_basic_blocks` satisfies the
invariant. -/
theorem build_basic_blocks_wf (body : AstStatement) (bs : List BasicBlock)
    (h : build_basic_blocks body = .ok bs) : WfBlocks bs := by
  cases body with
  | Block l =>
      unfold build_basic_blocks at h
      cases hv : visit_statement (.Block l) [entryBlock] with
      | error e => rw [hv] at h; exact absurd h (by simp)
      | ok out =>
          rw [hv] at h
          simp only [Except.ok.injEq] at h
          unfold visit_statement at hv
          have := visitGo_wf _ _ _ out hv wf_entry trivial
          rw [← h]
          exact this.1
  | InitializationBlock l => exact absurd h (by simp [build_basic_blocks])
  | While c s => exact absurd h (by simp [build_basic_blocks])
  | IfThenElse c a e => exact absurd h (by simp [build_basic_blocks])
  | Declaration n => exact absurd h (by simp [build_basic_blocks])
  | Substitution v r => exact absurd h (by simp [build_basic_blocks])
  | MultiSubstitution a b => exact absurd h (by simp [build_basic_blocks])
  | ConstraintEquality a b => exact absurd h (by simp [build_basic_blocks])
  | Return v => exact absurd h (by simp [build_basic_blocks])
  | Assert a => exact absurd h (by simp [build_basic_blocks])
  | LogCall => exact absurd h (by simp [build_basic_blocks])

/-! ## Supporting definitions and lemmas for the initialization-block claim -/

/-- The statements an initialization block is supposed to contain. -/
def IsDeclOrSubst : AstStatement → Bool
  | .Declaration _ => true
  | .Substitution _ _ => true
  | _ => false

/-- Lowering of one initialization statement: declarations produce no IR
statement, substitutions are lowered as is. -/
def lowerInit : AstStatement → Option IrStatement
  | .Substitution var rhe => some (.Substitution var rhe)
  | _ => none

def initLower (l : List AstStatement) : List IrStatement := l.filterMap lowerInit

def appendStmts (bs : List BasicBlock) (l : List IrStatement) : List BasicBlock :=
  l.foldl appendStmt bs

theorem predAt_appendStmts : ∀ (l : List IrStatement) (bs : List BasicBlock) (k : Nat),
    predAt (appendStmts bs l) k = predAt bs k := by
  intro l
  induction l with
  | nil => intro bs k; rfl
  | cons s rest ih =>
      intro bs k
      show predAt (appendStmts (appendStmt bs s) rest) k = predAt bs k
      rw [ih (appendStmt bs s) k, predAt_appendStmt]

theorem succAt_appendStmts : ∀ (l : List IrStatement) (bs : List BasicBlock) (k : Nat),
    succAt (appendStmts bs l) k = succAt bs k := by
  intro l
  induction l with
  | nil => intro bs k; rfl
  | cons s rest ih =>
      intro bs k
      show succAt (appendStmts (appendStmt bs s) rest) k = succAt bs k
      rw [ih (appendStmt bs s) k, succAt_appendStmt]

theorem startInits_cons_step (fuel : Nat) (s : AstStatement) (rest : List AstStatement)
    (bs bs1 : List BasicBlock) (h1 : visitGo fuel (.one s) bs = .ok (bs1, ∅)) :
    visitGo (fuel + 1) (.startInits (s :: rest)) bs =
      visitGo fuel (.startInits rest) bs1 := by
  simp only [visitGo, h1]
  rw [if_pos trivial]

/-- With enough fuel, an initialization block whose statements are all
declarations or substitutions is visited without error: declarations update
only the (omitted) environment, substitutions are appended to the current
block, and the returned predecessor set is empty. -/
theorem startInits_ok : ∀ (l : List AstStatement) (fuel : Nat) (bs : List BasicBlock),
    astSizeList l < fuel → (∀ s ∈ l, IsDeclOrSubst s = true) →
    visitGo fuel (.startInits l) bs = .ok (appendStmts bs (initLower l), ∅) := by
  intro l
  induction l with
  | nil =>
      intro fuel bs hfuel _
      obtain ⟨f, rfl⟩ : ∃ f, fuel = f + 1 := by
        cases fuel with
        | zero => simp [astSizeList] at hfuel
        | succ f => exact ⟨f, rfl⟩
      simp [visitGo, appendStmts, initLower]
  | cons s rest ih =>
      intro fuel bs hfuel hall
      have hs := hall s (by simp)
      have hsz : 1 + astSize s + astSizeList rest < fuel := by
        simpa [astSizeList] using hfuel
      have hszs : 1 ≤ astSize s := by
        cases s <;> simp [astSize] <;> omega
      obtain ⟨f, rfl⟩ : ∃ f, fuel = f + 1 := by
        cases fuel with
        | zero => omega
        | succ f => exact ⟨f, rfl⟩
      obtain ⟨f', rfl⟩ : ∃ f', f = f' + 1 := by
        cases f with
        | zero => omega
        | succ f' => exact ⟨f', rfl⟩
      cases s with
      | Declaration name =>
          have h1 : visitGo (f' + 1) (.one (.Declaration name)) bs = .ok (bs, ∅) := by
            simp [visitGo]
          rw [startInits_cons_step (f' + 1) _ rest bs bs h1]
          rw [ih (f' + 1) bs (by simp [astSize] at hsz ⊢; omega) (by
            intro x hx; exact hall x (by simp [hx]))]
          simp [initLower, appendStmts, lowerInit]
      | Substitution var rhe =>
          have h1 : visitGo (f' + 1) (.one (.Substitution var rhe)) bs =
              .ok (appendStmt bs (.Substitution var rhe), ∅) := by
            simp [visitGo]
          rw [startInits_cons_step (f' + 1) _ rest bs _ h1]
          rw [ih (f' + 1) (appendStmt bs (.Substitution var rhe))
            (by simp [astSize] at hsz ⊢; omega) (by
              intro x hx; exact hall x (by simp [hx]))]
          simp [initLower, appendStmts, lowerInit]
      | InitializationBlock l => simp [IsDeclOrSubst] at hs
      | Block l => simp [IsDeclOrSubst] at hs
      | While c b => simp [IsDeclOrSubst] at hs
      | IfThenElse c a e => simp [IsDeclOrSubst] at hs
      | MultiSubstitution a b => simp [IsDeclOrSubst] at hs
      | ConstraintEquality a b => simp [IsDeclOrSubst] at hs
      | Return v => simp [IsDeclOrSubst] at hs
      | Assert a => simp [IsDeclOrSubst] at hs
      | LogCall => simp [IsDeclOrSubst] at hs

/-! ## Claim C1 (scenario S6) -/

/-- The S6 template body `{ var x = 1; if (x == 1) { return; } x === 2; }`
(the parser wraps `var x = 1` into an initialization block holding the
declaration and the substitution). -/
def c1Body : AstStatement := .Block
  [ .InitializationBlock [ .Declaration "x", .Substitution "x" (.Number 1) ]
  , .IfThenElse (.InfixOp "==" (.Variable "x") (.Number 1))
      (.Block [.Return (.Number 0)]) none
  , .ConstraintEquality (.Variable "x") (.Number 2) ]

def c1Blocks : List BasicBlock := getBlocks (visit_statement c1Body [entryBlock])

/-- Claim C1 counterexample: on the S6 body, `build_basic_blocks` does give
3 blocks, but the predecessors of the false-branch block are {0, 1}, not
{entry} = {0}, and the successor set of the return block is {2}, not empty:
`return` is lowered by the catch-all arm of `visit_statement` and therefore
falls through to the next block. -/
theorem c1_counterexample :
    build_basic_blocks c1Body = .ok c1Blocks ∧ c1Blocks.length = 3 ∧
    predAt c1Blocks 2 = {0, 1} ∧ ¬ predAt c1Blocks 2 = {0} ∧
    succAt c1Blocks 1 = {2} ∧ ¬ succAt c1Blocks 1 = ∅ :=
  ⟨rfl, by decide, by decide, by decide, by decide, by decide⟩

/-- Claim C1 (amended): on the S6 body, `build_basic_blocks` produces
exactly 3 blocks — entry (substitution plus conditional with true target 1
and patched false target 2), true branch (holding the return), false branch
(holding `x === 2`) — where, because the return statement is lowered as an
ordinary statement and falls through, the predecessors of the false-branch
block are exactly {entry, true-branch} = {0, 1} and the successor set of
the true-branch block is {false-branch} = {2}. -/
theorem c1_return_scenario :
    build_basic_blocks c1Body = .ok c1Blocks ∧ c1Blocks.length = 3 ∧
    stmtsAt c1Blocks 0 = [.Substitution "x" (.Number 1),
      .IfThenElse (.InfixOp "==" (.Variable "x") (.Number 1)) 1 (some 2)] ∧
    stmtsAt c1Blocks 1 = [.Return (.Number 0)] ∧
    stmtsAt c1Blocks 2 = [.ConstraintEquality (.Variable "x") (.Number 2)] ∧
    predAt c1Blocks 0 = ∅ ∧ succAt c1Blocks 0 = {1, 2} ∧
    predAt c1Blocks 1 = {0} ∧ succAt c1Blocks 1 = {2} ∧
    predAt c1Blocks 2 = {0, 1} ∧ succAt c1Blocks 2 = ∅ :=
  ⟨rfl, by decide, by decide, by decide, by decide, by decide, by decide, by decide,
    by decide, by decide, by decide⟩

/-! ## Claim C2 (conditional closure) -/

/-- The body `{ while (c) { if (d) { x = 1; } } }`: its loop-body exit block
ends in a conditional and receives a back edge to the loop header. -/
def c2Body : AstStatement := .Block
  [ .While (.Variable "c")
      (.Block [ .IfThenElse (.Variable "d")
          (.Block [.Substitution "x" (.Number 1)]) none ]) ]

def c2Blocks : List BasicBlock := getBlocks (visit_statement c2Body [entryBlock])

/-- Claim C2 counterexample: in the CFG of `c2Body`, block 2 ends in
`IfThenElse { if_true = 3, if_false = none }` but its successor set is
{1, 3}: the back-edge loop of the `While` arm adds the loop header as a
successor without patching the conditional, so the successor set is not
`{t} ∪ f`. -/
theorem c2_counterexample :
    build_basic_blocks c2Body = .ok c2Blocks ∧
    (stmtsAt c2Blocks 2).getLast? = some (.IfThenElse (.Variable "d") 3 none) ∧
    succAt c2Blocks 2 = {1, 3} ∧ ¬ succAt c2Blocks 2 = {3} :=
  ⟨rfl, by decide, by decide, by decide⟩

/-- Claim C2 (amended): for every CFG produced by `build_basic_blocks` and
every block `i` whose last statement is `IfThenElse { if_true = t,
if_false = f }`, the successor set of `i` contains `t`, and contains `f`
when `f` is present; the containment can be strict, because a loop-body
exit block ending in a conditional additionally records the loop header as
a successor (with `if_false` left unpatched). -/
theorem c2_conditional_targets (body : AstStatement) (bs : List BasicBlock)
    (h : build_basic_blocks body = .ok bs) (i : Nat) (hi : i < bs.length)
    (c : Expr) (t : Nat) (f : Option Nat)
    (hlast : (stmtsAt bs i).getLast? = some (.IfThenElse c t f)) :
    t ∈ succAt bs i ∧ ∀ j, f = some j → j ∈ succAt bs i :=
  (build_basic_blocks_wf body bs h).cond_closed i hi c t f hlast

/-- Witness for the amended C2 at a concrete input: block 2 of `c2Blocks`
ends in `IfThenElse { if_true = 3, if_false = none }` and 3 is among its
successors. -/
theorem c2_conditional_targets_witness :
    3 ∈ succAt c2Blocks 2 ∧ ∀ j, (none : Option Nat) = some j → j ∈ succAt c2Blocks 2 :=
  c2_conditional_targets c2Body c2Blocks rfl 2 (by decide) (.Variable "d") 3 none (by decide)

/-! ## Claim C3 (value-knowledge refinement) -/

/-- Claim C3 counterexample: `set_reduces_to` overwrites unconditionally,
so a `ValueKnowledge` already set to `Boolean true` can be replaced by the
different value `Boolean false`. -/
theorem c3_counterexample :
    (ValueKnowledge.mk (some (.Boolean true))).get_reduces_to = some (.Boolean true) ∧
    ((ValueKnowledge.mk (some (.Boolean true))).set_reduces_to
        (.Boolean false)).get_reduces_to = some (.Boolean false) ∧
    (ValueReduction.Boolean false) ≠ (ValueReduction.Boolean true) := by
  refine ⟨rfl, rfl, by decide⟩

/-- Claim C3 (amended): once a reduction has been set it is never unset —
no sequence of `set_reduces_to` calls makes `get_reduces_to` return `none`
again.  However, `set_reduces_to` overwrites unconditionally, so replacing
`some v` with `some v'` for `v' ≠ v` is possible: the equal-refinement
discipline of the lattice is a contract on the analysis passes, not
enforced by `ValueKnowledge` itself. -/
theorem c3_never_unset (k : ValueKnowledge) (l : List ValueReduction)
    (h : k.get_reduces_to.isSome = true) :
    ((l.foldl ValueKnowledge.set_reduces_to k).get_reduces_to).isSome = true := by
  induction l generalizing k with
  | nil => exact h
  | cons v rest ih =>
      show ((rest.foldl ValueKnowledge.set_reduces_to
        (k.set_reduces_to v)).get_reduces_to).isSome = true
      exact ih (k.set_reduces_to v) rfl

/-- Witness for the amended C3 at a concrete input. -/
theorem c3_never_unset_witness :
    ((([ValueReduction.FieldElement 7]).foldl ValueKnowledge.set_reduces_to
        (ValueKnowledge.mk (some (.Boolean true)))).get_reduces_to).isSome = true :=
  c3_never_unset (ValueKnowledge.mk (some (.Boolean true)))
    [ValueReduction.FieldElement 7] (by decide)

/-! ## Claim C4 (initialization blocks) -/

/-- Claim C4 counterexample: an initialization block containing a statement
that is neither a declaration nor a substitution (here a constraint
equality) does not fail at all — there is no `MalformedInitBlock` error in
the builder; the statement is appended to the current block and the visit
returns `ok`. -/
theorem c4_counterexample :
    visit_statement
        (.InitializationBlock [.ConstraintEquality (.Variable "x") (.Number 2)])
        [entryBlock] =
      .ok ([⟨0, [.ConstraintEquality (.Variable "x") (.Number 2)], ∅, ∅⟩], ∅) := by
  rfl

/-- Claim C4 (amended): visiting an initialization block never produces a
recoverable `MalformedInitBlock` error, because no such error exists in the
builder.  An initialization block containing only declarations and
substitutions appends the lowered substitutions to the current block,
returns an empty predecessor set, and changes no predecessor or successor
set of any block.  An inner statement whose visit returns a non-empty
predecessor set (a control-flow statement such as a `while`) instead makes
the `assert!` in the initialization arm fail — a panic, not an `Err`. -/
theorem c4_init_block :
    (∀ (l : List AstStatement) (bs : List BasicBlock),
      (∀ s ∈ l, IsDeclOrSubst s = true) →
      visit_statement (.InitializationBlock l) bs =
          .ok (appendStmts bs (initLower l), ∅) ∧
        (∀ k, predAt (appendStmts bs (initLower l)) k = predAt bs k) ∧
        (∀ k, succAt (appendStmts bs (initLower l)) k = succAt bs k)) ∧
    visit_statement
        (.InitializationBlock [.While (.Variable "c")
          (.Block [.Substitution "x" (.Number 1)])])
        [entryBlock] = .error .panicAssert := by
  constructor
  · intro l bs hall
    refine ⟨?_, fun k => predAt_appendStmts _ bs k, fun k => succAt_appendStmts _ bs k⟩
    unfold visit_statement
    have hstep : visitGo (astSize (.InitializationBlock l) + 1)
        (.one (.InitializationBlock l)) bs =
        visitGo (astSize (.InitializationBlock l)) (.startInits l) bs := by
      simp only [visitGo]
    rw [hstep]
    exact startInits_ok l _ bs (by simp [astSize]) hall
  · rfl

/-- Witness for the amended C4 at a concrete input. -/
theorem c4_init_block_witness :
    visit_statement
        (.InitializationBlock [.Declaration "x", .Substitution "x" (.Number 1)])
        [entryBlock] =
      .ok ([⟨0, [.Substitution "x" (.Number 1)], ∅, ∅⟩], ∅) := by
  have h := (c4_init_block.1 [.Declaration "x", .Substitution "x" (.Number 1)]
    [entryBlock] (by decide)).1
  simpa [appendStmts, initLower, lowerInit, appendStmt, entryBlock] using h

/-! ## Claim C5 (process exit code) -/

/-- A report of category ERROR whose primary file is not among the user
inputs. -/
def c5LibraryReport : Report := ⟨"unused-variable", .Error, [5]⟩

/-- A report of category ERROR in a user-provided file. -/
def c5UserReport : Report := ⟨"unused-variable", .Error, [0]⟩

/-- Claim C5 counterexample: a report whose category (ERROR) is at least
the configured level (WARNING) is produced, yet the exit code is SUCCESS,
because the report's primary file (id 5) is not among the user inputs
(id 0) and the stdout writer also filters by file: the exit code does not
reflect severity alone. -/
theorem c5_counterexample :
    filter_by_level c5LibraryReport .Warning = true ∧
    main_exit ["main.circom"] [c5LibraryReport] .Warning [0] [] = .SUCCESS := by
  refine ⟨by decide, by decide⟩

/-- Claim C5 (amended): the exit code is FAILURE precisely when the input
file list is non-empty and at least one report passes all three stdout
filters (category at least the output level, a primary file among the user
inputs, id not allow-listed); every written report does have category at
least the output level, but severity alone does not determine the exit
code. -/
theorem c5_exit_code (input_files : List String) (reports : List Report)
    (output_level : MessageCategory) (user_inputs : List Nat)
    (allow_list : List String) :
    (main_exit input_files reports output_level user_inputs allow_list = .FAILURE ↔
      (input_files.isEmpty = false ∧
        written_reports reports output_level user_inputs allow_list ≠ [])) ∧
    ∀ r ∈ written_reports reports output_level user_inputs allow_list,
      filter_by_level r output_level = true := by
  constructor
  · unfold main_exit
    by_cases he : input_files.isEmpty
    · simp [he]
    · rw [if_neg he]
      cases hw : (written_reports reports output_level user_inputs allow_list).length with
      | zero =>
          simp only [Bool.not_eq_true] at he
          simp [he, List.length_eq_zero.mp hw]
      | succ n =>
          simp only [Bool.not_eq_true] at he
          have : written_reports reports output_level user_inputs allow_list ≠ [] := by
            intro hc
            rw [hc] at hw
            simp at hw
          simp [he, this]
  · intro r hr
    have := List.mem_filter.mp hr
    have hb := this.2
    simp only [Bool.and_eq_true] at hb
    exact hb.1.1

/-- Witness for the amended C5 at a concrete input: with one ERROR report
in a user file and level WARNING, the exit code is FAILURE, and the written
report passes the level filter. -/
theorem c5_exit_code_witness :
    main_exit ["main.circom"] [c5UserReport] .Warning [0] [] = .FAILURE ∧
    filter_by_level c5UserReport .Warning = true :=
  ⟨(c5_exit_code ["main.circom"] [c5UserReport] .Warning [0] []).1.mpr
      ⟨by decide, by decide⟩,
    (c5_exit_code ["main.circom"] [c5UserReport] .Warning [0] []).2 c5UserReport
      (by decide)⟩

/-! ## Claim C6 (scenario S3) -/

/-- The S3 template body
`{ var i = 0; while (i < 10) { i = i + 1; } i === 10; }`. -/
def c6Body : AstStatement := .Block
  [ .InitializationBlock [ .Declaration "i", .Substitution "i" (.Number 0) ]
  , .While (.InfixOp "<" (.Variable "i") (.Number 10))
      (.Block [ .Substitution "i" (.InfixOp "+" (.Variable "i") (.Number 1)) ])
  , .ConstraintEquality (.Variable "i") (.Number 10) ]

def c6Blocks : List BasicBlock := getBlocks (visit_statement c6Body [entryBlock])

/-- Claim C6: on the S3 body, `build_basic_blocks` produces exactly 4
blocks: entry (the substitution `i = 0`, sole successor the loop header),
header (ending in `IfThenElse` with `if_true = 2` the body block and
`if_false = 3` the tail block), body (`i = i + 1`, with successor set {1},
the back edge to the header), and tail (`i === 10`). -/
theorem c6_while_scenario :
    build_basic_blocks c6Body = .ok c6Blocks ∧ c6Blocks.length = 4 ∧
    stmtsAt c6Blocks 0 = [.Substitution "i" (.Number 0)] ∧
    succAt c6Blocks 0 = {1} ∧
    stmtsAt c6Blocks 1 =
      [.IfThenElse (.InfixOp "<" (.Variable "i") (.Number 10)) 2 (some 3)] ∧
    stmtsAt c6Blocks 2 = [.Substitution "i" (.InfixOp "+" (.Variable "i") (.Number 1))] ∧
    succAt c6Blocks 2 = {1} ∧
    stmtsAt c6Blocks 3 = [.ConstraintEquality (.Variable "i") (.Number 10)] ∧
    predAt c6Blocks 1 = {0, 2} ∧ succAt c6Blocks 1 = {2, 3} ∧
    predAt c6Blocks 3 = {1} ∧ succAt c6Blocks 3 = ∅ :=
  ⟨rfl, by decide, by decide, by decide, by decide, by decide, by decide, by decide,
    by decide, by decide, by decide, by decide⟩

/-! ## Claim C7 (edge symmetry) -/

/-- A small body whose CFG has a real edge, used for the C7 witness. -/
def c7Body : AstStatement := .Block
  [ .IfThenElse (.Variable "x") (.Block [.Substitution "y" (.Number 1)]) none ]

def c7Blocks : List BasicBlock := getBlocks (visit_statement c7Body [entryBlock])

/-- Claim C7: edge symmetry — in every basic-block vector produced by
`build_basic_blocks`, for all block indices `i` and `j`, `j` is in
`successors(i)` if and only if `i` is in `predecessors(j)`. -/
theorem c7_edge_symmetry (body : AstStatement) (bs : List BasicBlock)
    (h : build_basic_blocks body = .ok bs) (i j : Nat)
    (hi : i < bs.length) (hj : j < bs.length) :
    j ∈ succAt bs i ↔ i ∈ predAt bs j :=
  (build_basic_blocks_wf body bs h).sym i j hi hj

/-- Witness for C7 at a concrete input: in the CFG of `c7Body`, block 1 is
a successor of block 0 exactly as block 0 is a predecessor of block 1. -/
theorem c7_edge_symmetry_witness :
    1 ∈ succAt c7Blocks 0 ↔ 0 ∈ predAt c7Blocks 1 :=
  c7_edge_symmetry c7Body c7Blocks rfl 0 1 (by decide) (by decide)

/-! ## Claim C8 (entry block and predecessors) -/

/-- A small body used for the C8 witness. -/
def c8Body : AstStatement := .Block
  [ .ConstraintEquality (.Variable "z") (.Number 1) ]

def c8Blocks : List BasicBlock := getBlocks (visit_statement c8Body [entryBlock])

/-- Claim C8: every basic-block vector produced by `build_basic_blocks` is
non-empty, its block indices form the contiguous prefix `0..n` (the index
stored in each block equals its position), block 0 is the entry block with
no predecessors, and every block with index `i > 0` has at least one
predecessor. -/
theorem c8_entry_invariants (body : AstStatement) (bs : List BasicBlock)
    (h : build_basic_blocks body = .ok bs) :
    bs ≠ [] ∧ (∀ i, i < bs.length → (blockAt bs i).index = i) ∧
    predAt bs 0 = ∅ ∧ (∀ i, 0 < i → i < bs.length → predAt bs i ≠ ∅) :=
  have hwf := build_basic_blocks_wf body bs h
  ⟨hwf.ne, hwf.idx, hwf.entry_preds, hwf.preds_nonempty⟩

/-- Witness for C8 at a concrete input. -/
theorem c8_entry_invariants_witness :
    c8Blocks ≠ [] ∧ predAt c8Blocks 0 = ∅ :=
  have h := c8_entry_invariants c8Body c8Blocks rfl
  ⟨h.1, h.2.2.1⟩

/-! ## Claim C9 (frame property of complete_basic_block) -/

/-- If the final statement is not an unpatched conditional needing a new
false target, `patchLast` is the identity. -/
theorem patchLast_eq_self (l : List IrStatement) (j : Nat)
    (h : ∀ c t, l.getLast? = some (.IfThenElse c t none) → j = t) :
    patchLast l j = l := by
  induction l with
  | nil => rfl
  | cons s t ih =>
      cases t with
      | nil =>
          cases s with
          | IfThenElse c ift iff =>
              cases iff with
              | none =>
                  have := h c ift (by simp)
                  simp [patchLast, this]
              | some v => simp [patchLast]
          | Substitution a b => simp [patchLast]
          | MultiSubstitution a b => simp [patchLast]
          | ConstraintEquality a b => simp [patchLast]
          | Return a => simp [patchLast]
          | Assert a => simp [patchLast]
          | LogCall => simp [patchLast]
      | cons s' t' =>
          have h1 : patchLast (s :: s' :: t') j = s :: patchLast (s' :: t') j := by
            simp [patchLast]
          rw [h1, ih (fun c t hct => h c t (by rw [List.getLast?_cons_cons]; exact hct))]

/-- When the final statement is an unpatched conditional whose true target
is not `j`, `patchLast` sets the false target to `j`. -/
theorem patchLast_patches (l : List IrStatement) (j : Nat) (c : Expr) (t : Nat)
    (hl : l.getLast? = some (.IfThenElse c t none)) (hne : j ≠ t) :
    (patchLast l j).getLast? = some (.IfThenElse c t (some j)) := by
  rw [getLast?_patchLast, hl]
  dsimp only
  rw [if_pos hne]

/-- Claim C9: frame property of `complete_basic_block` and of the whole
builder.  (1) Each call to `complete_basic_block` appends exactly one new
block, with empty statement list, empty successors, the given predecessor
set, and index equal to the old length; for blocks already in the vector it
changes nothing except that blocks in `pred_set` gain the new index as a
successor and have their final statement passed through the false-branch
patch.  (2) The patch is the identity unless the final statement is an
`IfThenElse` with `if_false = none` and `if_true` different from the new
index, in which case only that `if_false` field is set.  (3) Across every
visit, the block vector only evolves: blocks are never removed, their
indices and recorded edges are never removed, and an existing statement is
only ever modified by the false-branch patch (`none` becoming `some j`) —
no other mutation of conditional branch targets exists. -/
theorem c9_frame :
    (∀ (bs : List BasicBlock) (ps : Finset Nat),
      (complete_basic_block bs ps).length = bs.length + 1 ∧
      blockAt (complete_basic_block bs ps) bs.length = ⟨bs.length, [], ps, ∅⟩ ∧
      ∀ i, i < bs.length →
        predAt (complete_basic_block bs ps) i = predAt bs i ∧
        (blockAt (complete_basic_block bs ps) i).index = (blockAt bs i).index ∧
        (i ∉ ps → blockAt (complete_basic_block bs ps) i = blockAt bs i) ∧
        (i ∈ ps →
          succAt (complete_basic_block bs ps) i = insert bs.length (succAt bs i) ∧
          stmtsAt (complete_basic_block bs ps) i = patchLast (stmtsAt bs i) bs.length)) ∧
    (∀ (l : List IrStatement) (j : Nat),
      ((∀ c t, l.getLast? = some (.IfThenElse c t none) → j = t) → patchLast l j = l) ∧
      (∀ c t, l.getLast? = some (.IfThenElse c t none) → j ≠ t →
        (patchLast l j).getLast? = some (.IfThenElse c t (some j)) ∧
        StmtsEvol l (patchLast l j))) ∧
    (∀ (fuel : Nat) (t : VisitTask) (bs : List BasicBlock)
      (out : List BasicBlock × Finset Nat),
      visitGo fuel t bs = .ok out → BlocksEvol bs out.1) := by
  refine ⟨?_, ?_, visitGo_evol⟩
  · intro bs ps
    refine ⟨complete_length bs ps, blockAt_complete_new bs ps, ?_⟩
    intro i hi
    refine ⟨predAt_complete_old bs ps i hi, indexAt_complete_old bs ps i hi, ?_, ?_⟩
    · intro hip
      rw [blockAt_complete_old bs ps i hi, if_neg hip]
    · intro hip
      rw [succAt_complete_old bs ps i hi, if_pos hip,
        stmtsAt_complete_old bs ps i hi, if_pos hip]
      exact ⟨rfl, rfl⟩
  · intro l j
    refine ⟨patchLast_eq_self l j, ?_⟩
    intro c t hl hne
    exact ⟨patchLast_patches l j c t hl hne, stmtsEvol_patchLast l j⟩

/-- Witness for C9 at concrete inputs: completing the singleton entry
vector appends one block; the patch sets the false target of an unpatched
conditional and is the identity on a block ending in a substitution; and a
concrete visit evolves the entry vector to the appended result. -/
theorem c9_frame_witness :
    (complete_basic_block [entryBlock] {0}).length = 2 ∧
    patchLast [.Substitution "a" (.Number 1)] 5 = [.Substitution "a" (.Number 1)] ∧
    (patchLast [.IfThenElse (.Variable "x") 1 none] 2).getLast? =
      some (.IfThenElse (.Variable "x") 1 (some 2)) ∧
    BlocksEvol [entryBlock] [⟨0, [.Substitution "w" (.Number 2)], ∅, ∅⟩] :=
  ⟨(c9_frame.1 [entryBlock] {0}).1,
    (c9_frame.2.1 [.Substitution "a" (.Number 1)] 5).1
      (by intro c t hct; simp at hct),
    ((c9_frame.2.1 [.IfThenElse (.Variable "x") 1 none] 2).2 (.Variable "x") 1
      (by rfl) (by decide)).1,
    c9_frame.2.2 (astSize (.Substitution "w" (.Number 2)) + 1)
      (.one (.Substitution "w" (.Number 2))) [entryBlock]
      ([⟨0, [.Substitution "w" (.Number 2)], ∅, ∅⟩], ∅) (by rfl)⟩

/-! ## Claim C10 (template gathering and the depth limit) -/

/-- Claim C10: `gather_templates_expression` with `level = 0` on a `Call`
expression leaves the result set unchanged (the callee's id is not inserted
and no body is visited), whereas on an `AnonymousComponent` expression it
inserts the component's id for every level, including 0. -/
theorem c10_gather_levels (pa : ProgramArchive) (result : Finset String)
    (id : String) (level : Nat) :
    gather_templates_expression (.Call id) result pa 0 = result ∧
    gather_templates_expression (.AnonymousComponent id) result pa level =
      insert id result := by
  constructor <;> simp [gather_templates_expression]
